import Mathlib

/-!
Verification development for the Django comment-engine repository
(backend apps `apps/comments` and `comments`).

The Python source is shallowly embedded: pure functions become Lean
functions, database rows become fields of explicit state records, and
each HTTP/ORM operation becomes a state-passing function.  Machine
integers are modelled as `Nat`/`Int`/`Rat` (Python integers are
unbounded; the spam score mixes ints and floats, modelled as `Rat`).
Timestamps are seconds as `Nat`.
-/

/- ### Basic character helpers (ASCII model of Python `str` methods) -/

/-- Python `c.isupper()` restricted to ASCII letters (the texts in the
claims are ASCII). -/
def isUpperAscii (c : Char) : Bool := 'A' ≤ c && c ≤ 'Z'

/-- ASCII lower-casing, models Python `str.lower` per character. -/
def toLowerAscii (c : Char) : Char :=
  if isUpperAscii c then Char.ofNat (c.toNat + 32) else c

/-- Python `s.lower()` on a character list. -/
def lowerL (l : List Char) : List Char := l.map toLowerAscii

/-- Boolean prefix test used by the substring helpers. -/
def isPrefixOfB : List Char → List Char → Bool
  | [], _ => true
  | _ :: _, [] => false
  | a :: as, b :: bs => a = b && isPrefixOfB as bs

/-- Python `needle in hay` (substring containment). -/
def containsSub (needle : List Char) : List Char → Bool
  | [] => needle.isEmpty
  | c :: t => isPrefixOfB needle (c :: t) || containsSub needle t

/-- Python `hay.count(needle)`: non-overlapping occurrence count, as a
fuel-based scan (fuel = the remaining length suffices, since each step
consumes at least one character). -/
def countSubF (needle : List Char) : Nat → List Char → Nat
  | 0, _ => 0
  | _ + 1, [] => 0
  | fuel + 1, c :: t =>
    if isPrefixOfB needle (c :: t) then
      1 + countSubF needle fuel (t.drop (needle.length - 1))
    else
      countSubF needle fuel t

/-- Python `hay.count(needle)`. -/
def countSub (needle l : List Char) : Nat :=
  countSubF needle l.length l

/- ### SpamDetectionService.get_spam_score (apps/comments/services.py 263-295) -/

/-- The keyword list of `get_spam_score` (services.py 274-277). -/
def spam_keywords : List (List Char) :=
  [ "casino".data, "poker".data, "viagra".data, "cialis".data,
    "lottery".data, "winner".data, "click here".data, "free money".data,
    "make money".data, "work from home".data ]

/-- `SpamDetectionService.get_spam_score` (services.py 263-295), text
part only: the author/email/ip parameters are unused by the Python body.
Python mixes int and float arithmetic; modelled in `Rat`. -/
def get_spam_score (comment_text : List Char) : Rat :=
  let text_lower := lowerL comment_text
  let keyword_count := (spam_keywords.filter (fun k => containsSub k text_lower)).length
  let score1 : Rat := (keyword_count : Rat) * 15
  let url_count := countSub "http".data comment_text
  let score2 : Rat := score1 + (url_count : Rat) * 10
  let upperCount := (comment_text.filter (fun c => isUpperAscii c)).length
  let capsShare : Rat := (upperCount : Rat) / (max comment_text.length 1 : Rat)
  let score3 : Rat := score2 + capsShare * 30
  let score4 : Rat :=
    if comment_text.length < 10 ∨ comment_text.length > 2000 then score3 + 10 else score3
  min score4 100

/-- Comment fields relevant to the auto-moderation sweep. -/
structure ModComment where
  text : List Char
  is_active : Bool
  is_moderated : Bool
deriving DecidableEq, Repr

/-- One comment's treatment by `detect_and_moderate_spam`
(apps/comments/tasks.py 126-167): the sweep only touches comments that
are active and unmoderated, and hides those whose spam score exceeds 80. -/
def detect_and_moderate_spam_step (c : ModComment) : ModComment :=
  if c.is_active ∧ ¬ c.is_moderated ∧ get_spam_score c.text > 80 then
    { c with is_active := false, is_moderated := true }
  else
    c

/-- The scenario text of claim C7 read so that all three premises hold
at once: it contains the keyword viagra (keyword matching in the scorer
is case-insensitive), three HTTP substrings, and only uppercase
characters. -/
def scenarioTextC7 : List Char := "VIAGRAHTTPHTTPHTTP".data

/- ### CaptchaToken (apps/comments/models.py 303-352, serializers.py 137-207) -/

/-- `CaptchaToken` row fields used by validation. -/
structure CaptchaToken where
  challenge : List Char
  solution : List Char
  created_at : Nat
  used_at : Option Nat
deriving DecidableEq, Repr

/-- `CaptchaToken.is_expired` (models.py 344-348):
`timezone.now() > self.created_at + timedelta(minutes=10)`. -/
def CaptchaToken.is_expired (now : Nat) (t : CaptchaToken) : Bool :=
  decide (now > t.created_at + 600)

/-- `CaptchaToken.is_used` (models.py 350-352). -/
def CaptchaToken.is_used (t : CaptchaToken) : Bool := t.used_at.isSome

/-- The error classes raised across captcha validation. -/
inductive CaptchaErr where
  | notFound
  | expired
  | used
  | wrong
deriving DecidableEq, Repr

/-- `CommentSerializer.validate_captcha_token` (serializers.py 137-147).
`lookup` is the result of `CaptchaToken.objects.get(token=value)`. -/
def validate_captcha_token (now : Nat) (lookup : Option CaptchaToken) :
    Except CaptchaErr CaptchaToken :=
  match lookup with
  | none => .error .notFound
  | some t =>
    if t.is_expired now then .error .expired
    else if t.is_used then .error .used
    else .ok t

/-- The serializer's full captcha path for a submission: DRF runs the
field validator `validate_captcha_token` first, then the cross-field
`validate` compares the stored solution with the submitted one
(serializers.py 149-164). -/
def validateCommentCaptcha (now : Nat) (lookup : Option CaptchaToken)
    (submitted : List Char) : Except CaptchaErr CaptchaToken :=
  match validate_captcha_token now lookup with
  | .error e => .error e
  | .ok t => if t.solution ≠ submitted then .error .wrong else .ok t

/-- `CommentSerializer.create` marks the captcha used:
`captcha.used_at = timezone.now()` (serializers.py 191-195). -/
def markCaptchaUsed (now : Nat) (t : CaptchaToken) : CaptchaToken :=
  { t with used_at := some now }

/-- A full submission against one captcha token: validation, then on
success `create` marks the token used.  Returns the token as stored
after the request. -/
def submitWithCaptcha (now : Nat) (lookup : Option CaptchaToken)
    (submitted : List Char) : Except CaptchaErr CaptchaToken :=
  match validateCommentCaptcha now lookup submitted with
  | .error e => .error e
  | .ok t => .ok (markCaptchaUsed now t)

/-- Responses of the `captcha_image` view (apps/comments/views.py
271-298). -/
inductive ImgResponse where
  | image (challenge : List Char)
  | gone410
  | notFound404
deriving DecidableEq, Repr

/-- `captcha_image` (apps/comments/views.py 271-298): 404 when the token
row does not exist, 410 when expired, otherwise the image rendered from
the stored challenge.  The view never consults `used_at`. -/
def captcha_image (now : Nat) (lookup : Option CaptchaToken) : ImgResponse :=
  match lookup with
  | none => .notFound404
  | some t =>
    if t.is_expired now then .gone410
    else .image t.challenge

/- ### Create-side rate limiter (comments/views.py 68-97) -/

/-- `CommentListCreateView.perform_create` rate gate (comments/views.py
72-86): read the per-IP counter from cache (default 0); if it is
already at least 5, the request fails by raising and no comment is
saved; otherwise the comment is saved and the counter is set to
count+1 with a one-hour TTL.  `none` = request rejected, `some c` = the
comment was created and `c` is the new counter value. -/
def perform_create_gate (current_count : Nat) : Option Nat :=
  if current_count ≥ 5 then none else some (current_count + 1)

/-- Outcomes of `n` back-to-back submissions from one IP inside a single
rate-limit window, starting from counter value `count`: `true` means
the comment was created, `false` means the request was rejected. -/
def rlOutcomes : Nat → Nat → List Bool
  | 0, _ => []
  | n + 1, count =>
    match perform_create_gate count with
    | some c2 => true :: rlOutcomes n c2
    | none => false :: rlOutcomes n count

/- ### Like toggling (comments/views.py 124-158, comments/models.py 68-71) -/

/-- The `CommentLike` row for one (comment, ip) pair in the `comments`
app: `none` = no row, `some b` = a row with `is_active = b`. -/
def toggle_comment_like : Option Bool → Option Bool
  | none => some true
  | some b => some (!b)

/-- Whether the (comment, ip) pair currently counts as liking: the view
reports `like.is_active`, and a missing row likes nothing. -/
def likeActive : Option Bool → Bool
  | none => false
  | some b => b

/-- `Comment.likes_count` (comments/models.py 68-71): the live count of
active likes.  `others` is the count contributed by all other IPs,
which toggling this pair never touches. -/
def likes_count (others : Nat) (st : Option Bool) : Nat :=
  others + (if likeActive st then 1 else 0)

/- ### Comment store of apps/comments (models.py, serializers.py, signals.py, services.py) -/

/-- A `Comment` row of the `apps/comments` app, restricted to the fields
the claims are about. -/
structure AComment where
  id : Nat
  parent : Option Nat
  is_active : Bool
  is_moderated : Bool
  replies_count : Nat
  likes_count : Nat
deriving DecidableEq, Repr

/-- Database state for the `apps/comments` app.  `likes` holds
(comment id, ip) pairs: `CommentLike` in this app has no `is_active`
field.  `nextId` models the autoincrement primary key. -/
structure AState where
  comments : List AComment
  likes : List (Nat × Nat)
  nextId : Nat
deriving DecidableEq, Repr

/-- `Comment.objects.get(id=cid)`. -/
def findC (s : AState) (cid : Nat) : Option AComment :=
  s.comments.find? (fun c => c.id = cid)

/-- Saving an updated row: every row with this id is rewritten by `f`. -/
def updComment (s : AState) (cid : Nat) (f : AComment → AComment) : AState :=
  { s with comments := s.comments.map (fun c => if c.id = cid then f c else c) }

/-- `parent.replies.filter(is_active=True).count()`. -/
def activeChildren (s : AState) (pid : Nat) : Nat :=
  (s.comments.filter (fun c => c.parent = some pid && c.is_active)).length

/-- `parent.replies.count()` (no activity filter). -/
def allChildren (s : AState) (pid : Nat) : Nat :=
  (s.comments.filter (fun c => c.parent = some pid)).length

/-- `comment.likes.count()` (all like rows of the comment). -/
def likesOf (s : AState) (cid : Nat) : Nat :=
  (s.likes.filter (fun l => l.1 = cid)).length

/-- The parent-chain walk of `Comment.get_depth` (models.py 199-208),
with fuel since the embedding stores rows in a list.  Each resolvable
parent link adds one. -/
def depthFuel (s : AState) : Nat → Option Nat → Nat
  | _, none => 0
  | 0, some _ => 1
  | fuel + 1, some p =>
    1 + (match findC s p with
         | none => 0
         | some c => depthFuel s fuel c.parent)

/-- `Comment.get_depth` (models.py 199-208). -/
def get_depth (s : AState) (c : AComment) : Nat :=
  depthFuel s s.comments.length c.parent

/-- `Comment.can_reply` (models.py 214-217): at most 3 nesting levels. -/
def can_reply (s : AState) (c : AComment) : Bool :=
  get_depth s c < 3

/-- `comment_post_save` with `created=True` (signals.py 8-31): recompute
the parent's reply counter from the active children. -/
def comment_post_save_created (s : AState) (c : AComment) : AState :=
  match c.parent with
  | none => s
  | some pid =>
    updComment s pid (fun pc => { pc with replies_count := activeChildren s pid })

/-- `CommentSerializer.create` (serializers.py 175-207): insert the row
(which fires the post_save signal), then set the parent's
`replies_count` to `parent.replies.count()` — the unfiltered child
count.  Returns the new state and the created comment. -/
def serializer_create (s : AState) (parent : Option Nat) : AState × AComment :=
  let c : AComment :=
    { id := s.nextId, parent := parent, is_active := true, is_moderated := false,
      replies_count := 0, likes_count := 0 }
  let s1 : AState := { s with comments := s.comments ++ [c], nextId := s.nextId + 1 }
  let s2 := comment_post_save_created s1 c
  let s3 :=
    match parent with
    | none => s2
    | some pid => updComment s2 pid (fun pc => { pc with replies_count := allChildren s2 pid })
  (s3, c)

/-- `CommentLikeSerializer.create` plus `comment_like_post_save`
(serializers.py 277-304, signals.py 55-70), for a pair that has not
liked yet: insert the like row and set `likes_count` to the total like
count of the comment. -/
def like_create (s : AState) (cid ip : Nat) : AState :=
  let s1 : AState := { s with likes := s.likes ++ [(cid, ip)] }
  updComment s1 cid (fun c => { c with likes_count := likesOf s1 cid })

/-- `CommentService.mark_comment_as_spam` (services.py 88-111): hide and
mark moderated.  The save fires `comment_post_save` with
`created=False`, which does nothing; no counter on the parent is
touched. -/
def mark_comment_as_spam (s : AState) (cid : Nat) : AState × Bool :=
  match findC s cid with
  | none => (s, false)
  | some _ =>
    ((updComment s cid (fun c => { c with is_active := false, is_moderated := true })), true)

/-- Validation errors of the create endpoints. -/
inductive CreateErr where
  | parentMissing
  | maxDepth
deriving DecidableEq, Repr

/-- `CommentSerializer.validate` (serializers.py 149-173) for the parent
field, after DRF resolved the parent id against all comment rows: it
only rejects a parent whose `can_reply` is false.  It does not check
`is_active`. -/
def serializer_validate_parent (s : AState) (parent : Option Nat) :
    Except CreateErr Unit :=
  match parent with
  | none => .ok ()
  | some pid =>
    match findC s pid with
    | none => .error .parentMissing
    | some pc => if ¬ can_reply s pc then .error .maxDepth else .ok ()

/-- POST on `CommentListCreateView` (apps/comments/views.py 35-119) with
an optional `parent` in the body: serializer validation, then create. -/
def create_via_list_endpoint (s : AState) (parent : Option Nat) :
    Except CreateErr (AState × AComment) :=
  match serializer_validate_parent s parent with
  | .error e => .error e
  | .ok _ => .ok (serializer_create s parent)

/-- POST on `CommentReplyCreateView` (apps/comments/views.py 147-189):
the view fetches the parent with `is_active=True` (404 otherwise),
rejects when `can_reply` is false, then delegates to the serializer. -/
def create_via_reply_endpoint (s : AState) (pid : Nat) :
    Except CreateErr (AState × AComment) :=
  match findC s pid with
  | none => .error .parentMissing
  | some pc =>
    if ¬ pc.is_active then .error .parentMissing
    else if ¬ can_reply s pc then .error .maxDepth
    else create_via_list_endpoint s (some pid)

/-- States reachable through the embedded operations, starting from an
empty database. -/
inductive ReachA : AState → Prop where
  | init : ReachA ⟨[], [], 0⟩
  | stepList {s s2 : AState} {p : Option Nat} {c : AComment} :
      ReachA s → create_via_list_endpoint s p = .ok (s2, c) → ReachA s2
  | stepReply {s s2 : AState} {pid : Nat} {c : AComment} :
      ReachA s → create_via_reply_endpoint s pid = .ok (s2, c) → ReachA s2
  | stepSpam {s : AState} (cid : Nat) :
      ReachA s → ReachA (mark_comment_as_spam s cid).1
  | stepLike {s : AState} (cid ip : Nat) :
      ReachA s → ReachA (like_create s cid ip)

/-- Concrete run for claim C1: a root comment, one reply through the
serializer, then the reply is marked as spam. -/
def c1State : AState :=
  let s1 := (serializer_create ⟨[], [], 0⟩ none).1
  let s2 := (serializer_create s1 (some 0)).1
  (mark_comment_as_spam s2 1).1

/-- Concrete state for claim C2: a single root comment that has been
marked as spam (inactive, depth 0). -/
def c2State : AState :=
  (mark_comment_as_spam (serializer_create ⟨[], [], 0⟩ none).1 0).1

/- ### Text sanitizer (apps/comments/models.py 137-187)

`Comment.sanitize_text` first calls `bleach.clean` with allowed tags
`i, strong, code, a` (keeping only `href`/`title` on `a`, with
`strip=True`), then re-validates the result with the stack-based
`is_valid_xhtml`, falling back to `django.utils.html.strip_tags` when
the validation fails.  `is_valid_xhtml` is in the source and is
embedded faithfully, including its Python `find`/slice arithmetic.
`bleach.clean` and `strip_tags` are external libraries and are
modelled from the spec (section 4.1). -/

/-- `[a-zA-Z]` of the tag pattern in `is_valid_xhtml`. -/
def isLetterAscii (c : Char) : Bool :=
  ('a' ≤ c && c ≤ 'z') || ('A' ≤ c && c ≤ 'Z')

/-- `[a-zA-Z0-9]` of the tag pattern. -/
def isAlnumAscii (c : Char) : Bool :=
  isLetterAscii c || ('0' ≤ c && c ≤ '9')

/-- Boolean span: longest prefix whose characters satisfy `p`, with the
remainder. -/
def spanP (p : Char → Bool) : List Char → List Char × List Char
  | [] => ([], [])
  | c :: t =>
    if p c then
      let r := spanP p t
      (c :: r.1, r.2)
    else
      ([], c :: t)

/-- Tokens of the markup scanner: a tag match of the regex
`<(/?)([a-zA-Z][a-zA-Z0-9]*)[^>]*>` (carrying its closing flag, name
and the `[^>]*` span), or a single non-tag character. -/
inductive HTok where
  | txt (c : Char)
  | tag (closing : Bool) (nm : List Char) (inside : List Char)
deriving DecidableEq, Repr

/-- Body of a tag match after `<` and the optional `/`: a letter, more
alphanumerics, then anything up to the mandatory `>`.  Returns the
closing flag, name, inside span and the remaining input. -/
def matchTagCore (cl : Bool) : List Char → Option (Bool × List Char × List Char × List Char)
  | [] => none
  | c :: r2 =>
    if isLetterAscii c then
      let s1 := spanP isAlnumAscii r2
      let s2 := spanP (fun d => d ≠ '>') s1.2
      match s2.2 with
      | '>' :: r5 => some (cl, c :: s1.1, s2.1, r5)
      | _ => none
    else none

/-- A match of the tag regex at the head of the input. -/
def matchTag : List Char → Option (Bool × List Char × List Char × List Char)
  | '<' :: '/' :: r => matchTagCore true r
  | '<' :: r => matchTagCore false r
  | _ => none

/-- Left-to-right non-overlapping scan of `re` over the text, as a
fuel-based recursion (fuel = the remaining length suffices). -/
def lexFuel : Nat → List Char → List HTok
  | 0, _ => []
  | _, [] => []
  | fuel + 1, c :: t =>
    match matchTag (c :: t) with
    | some (cl, nm, ins, r) => .tag cl nm ins :: lexFuel fuel r
    | none => .txt c :: lexFuel fuel t

/-- The scan of the whole text. -/
def lexHtml (l : List Char) : List HTok := lexFuel l.length l

/-- `re.findall(tag_pattern, text)` of `is_valid_xhtml`: the (closing,
name) group pairs in scan order. -/
def findTags (l : List Char) : List (Bool × List Char) :=
  (lexHtml l).filterMap (fun t =>
    match t with
    | .tag cl nm _ => some (cl, nm)
    | .txt _ => none)

/-- First index of `needle` in `hay`, scanning from the front. -/
def idxOfSub (needle : List Char) : List Char → Option Nat
  | [] => if needle.isEmpty then some 0 else none
  | c :: t =>
    if isPrefixOfB needle (c :: t) then some 0
    else (idxOfSub needle t).map (· + 1)

/-- Python `hay.find(needle)`: index or -1. -/
def pyFindSub (hay needle : List Char) : Int :=
  match idxOfSub needle hay with
  | some i => (i : Int)
  | none => -1

/-- Python's normalisation of a (possibly negative) start argument. -/
def pyNormStart (len : Nat) (start : Int) : Nat :=
  if start < 0 then ((len : Int) + start).toNat else start.toNat

/-- First index of the character `ch` at or after position `st`. -/
def idxOfChFrom (ch : Char) (st : Nat) (l : List Char) : Option Nat :=
  (idxOfSub [ch] (l.drop st)).map (· + st)

/-- Python `hay.find('>', start)` with Python's negative-start rule. -/
def pyFindCh (hay : List Char) (ch : Char) (start : Int) : Int :=
  match idxOfChFrom ch (pyNormStart hay.length start) hay with
  | some i => (i : Int)
  | none => -1

/-- Python's normalisation of one slice bound. -/
def pyNormIdx (len : Nat) (i : Int) : Nat :=
  if i < 0 then ((len : Int) + i).toNat else min i.toNat len

/-- Python `l[i:j]`. -/
def pySlice (l : List Char) (i j : Int) : List Char :=
  (l.take (pyNormIdx l.length j)).drop (pyNormIdx l.length i)

/-- Boolean suffix test (`str.endswith`). -/
def endsWith (suf l : List Char) : Bool :=
  l.drop (l.length - suf.length) = suf && suf.length ≤ l.length

/-- The self-closing-tag test of `is_valid_xhtml` (models.py 182),
verbatim: it slices from the first occurrence of `<name` in the whole
text to the next `>` and asks whether that slice ends in `/>`. -/
def looksSelfClosing (text : List Char) (nmLower : List Char) : Bool :=
  let i := pyFindSub text ('<' :: nmLower)
  let j := pyFindCh text '>' i
  endsWith ['/', '>'] (pySlice text i (j + 1))

/-- The tag-stack loop of `is_valid_xhtml` (models.py 173-185). -/
def validScan (text : List Char) : List (Bool × List Char) → List (List Char) → Bool
  | [], stack => stack.isEmpty
  | (cl, nm) :: rest, stack =>
    let n := lowerL nm
    if cl then
      match stack with
      | [] => false
      | top :: s => if top = n then validScan text rest s else false
    else
      if looksSelfClosing text n then validScan text rest stack
      else validScan text rest (n :: stack)

/-- `Comment.is_valid_xhtml` (models.py 161-187). -/
def is_valid_xhtml (text : List Char) : Bool :=
  validScan text (findTags text) []

/-- The allow-list of `sanitize_text` (models.py 141). -/
def allowedB (nm : List Char) : Bool :=
  nm = "i".data || nm = "strong".data || nm = "code".data || nm = "a".data

/-- The attribute allow-list for `a` (models.py 142-144). -/
def aAllowedAttr (nm : List Char) : Bool :=
  nm = "href".data || nm = "title".data

/-- HTML escaping of text and attribute values as the sanitising
library performs it, entity-aware so that already-escaped text is left
alone: `&` starting one of the emitted entities is kept, any other
`&`, `<`, `>`, `"` becomes its entity. -/
def escHtml : List Char → List Char
  | [] => []
  | '&' :: 'a' :: 'm' :: 'p' :: ';' :: r => '&' :: 'a' :: 'm' :: 'p' :: ';' :: escHtml r
  | '&' :: 'l' :: 't' :: ';' :: r => '&' :: 'l' :: 't' :: ';' :: escHtml r
  | '&' :: 'g' :: 't' :: ';' :: r => '&' :: 'g' :: 't' :: ';' :: escHtml r
  | '&' :: 'q' :: 'u' :: 'o' :: 't' :: ';' :: r => '&' :: 'q' :: 'u' :: 'o' :: 't' :: ';' :: escHtml r
  | '&' :: r => '&' :: 'a' :: 'm' :: 'p' :: ';' :: escHtml r
  | '<' :: r => '&' :: 'l' :: 't' :: ';' :: escHtml r
  | '>' :: r => '&' :: 'g' :: 't' :: ';' :: escHtml r
  | '"' :: r => '&' :: 'q' :: 'u' :: 'o' :: 't' :: ';' :: escHtml r
  | c :: r => c :: escHtml r

/-- Every `&` begins one of the four emitted entities. -/
def ampOk : List Char → Bool
  | [] => true
  | '&' :: 'a' :: 'm' :: 'p' :: ';' :: r => ampOk r
  | '&' :: 'l' :: 't' :: ';' :: r => ampOk r
  | '&' :: 'g' :: 't' :: ';' :: r => ampOk r
  | '&' :: 'q' :: 'u' :: 'o' :: 't' :: ';' :: r => ampOk r
  | '&' :: _ => false
  | _ :: r => ampOk r

/-- No markup-significant character remains. -/
def safeChars (l : List Char) : Bool :=
  l.all (fun c => !(c = '<' || c = '>' || c = '"'))

/-- Attribute scanner for the `[^>]*` span of a tag: names up to `=` or
a space, values either double-quoted or up to the next space.  Fuel =
remaining length suffices (each step consumes at least one character). -/
def parseAttrsF : Nat → List Char → List (List Char × List Char)
  | 0, _ => []
  | _, [] => []
  | fuel + 1, c :: rest =>
    if c = ' ' || c = '/' || c = '=' || c = '"' then parseAttrsF fuel rest
    else
      let s1 := spanP (fun d => !(d = '=' || d = ' ')) rest
      let nm := lowerL (c :: s1.1)
      match s1.2 with
      | '=' :: '"' :: r2 =>
        let s2 := spanP (fun d => d ≠ '"') r2
        (nm, s2.1) :: parseAttrsF fuel s2.2.tail
      | '=' :: r2 =>
        let s2 := spanP (fun d => d ≠ ' ') r2
        (nm, s2.1) :: parseAttrsF fuel s2.2
      | r2 => (nm, []) :: parseAttrsF fuel r2

/-- Attribute scanning of a tag's inside span. -/
def parseAttrs (l : List Char) : List (List Char × List Char) :=
  parseAttrsF l.length l

/-- Keep only the attributes allowed on `a`. -/
def filterAAttrs (l : List (List Char × List Char)) : List (List Char × List Char) :=
  l.filter (fun a => aAllowedAttr a.1)

/-- Output pieces of the cleaning pass: a run of text characters or a
kept tag with its retained attributes. -/
inductive CItem where
  | run (r : List Char)
  | tg (closing : Bool) (nm : List Char) (attrs : List (List Char × List Char))
deriving DecidableEq, Repr

/-- How the cleaner keeps an allowed tag: attributes are dropped except
`href`/`title` on an opening `a`. -/
def cleanTag (cl : Bool) (nmLow : List Char) (ins : List Char) : CItem :=
  if cl then .tg true nmLow []
  else if nmLow = "a".data then .tg false nmLow (filterAAttrs (parseAttrs ins))
  else .tg false nmLow []

/-- Grouping of the scanned tokens into cleaner output pieces:
disallowed tags are dropped (keeping their surrounding text, which the
grouping merges into one run), allowed tags are kept canonically. -/
def toItems : List HTok → List CItem
  | [] => []
  | .tag cl nm ins :: ts =>
    if allowedB (lowerL nm) then cleanTag cl (lowerL nm) ins :: toItems ts
    else toItems ts
  | .txt c :: ts =>
    match toItems ts with
    | .run r :: is => .run (c :: r) :: is
    | is => .run [c] :: is

/-- Canonical rendering of retained attributes. -/
def renderAttrsL : List (List Char × List Char) → List Char
  | [] => []
  | (nm, v) :: rest => ' ' :: (nm ++ '=' :: '"' :: (escHtml v ++ '"' :: renderAttrsL rest))

/-- Rendering one cleaner output piece back to text. -/
def renderItem : CItem → List Char
  | .run r => escHtml r
  | .tg true nm _ => '<' :: '/' :: (nm ++ ['>'])
  | .tg false nm attrs => '<' :: (nm ++ (renderAttrsL attrs ++ ['>']))

/-- Rendering a cleaner output. -/
def renderItems (l : List CItem) : List Char :=
  (l.map renderItem).flatten

/-- Modelled from the spec: `bleach.clean(text, tags=['i','strong',
'code','a'], attributes={'a': ['href','title']}, strip=True)` — the
bleach library is external to the repository.  Per spec section 4.1 it
strips every tag outside the allow-list (keeping the content) and keeps
only `href`/`title` on `a`; stray markup characters outside recognised
tags are escaped by the library's serialiser. -/
def bleach_clean (x : List Char) : List Char :=
  renderItems (toItems (lexHtml x))

/-- One pass of tag removal: drop every tag match, keep the rest. -/
def stripOnce (l : List Char) : List Char :=
  (lexHtml l).filterMap (fun t =>
    match t with
    | .txt c => some c
    | .tag _ _ _ => none)

/-- Fuel-bounded iteration of `stripOnce` until no tag is found. -/
def stripFuel : Nat → List Char → List Char
  | 0, l => l
  | fuel + 1, l => if findTags l = [] then l else stripFuel fuel (stripOnce l)

/-- Modelled from the spec: `django.utils.html.strip_tags` — the Django
utility is external to the repository.  Per spec section 4.1 the
fallback strips all tags; Django iterates single passes until no tag
remains. -/
def strip_tags (l : List Char) : List Char :=
  stripFuel l.length l

/-- `Comment.sanitize_text` (models.py 137-159). -/
def sanitize_text (text : List Char) : List Char :=
  let cleaned := bleach_clean text
  if is_valid_xhtml cleaned then cleaned else strip_tags cleaned

/-- The plain stack discipline on a tag list: every opening tag is
matched by a properly nested closing tag (names compared lower-cased). -/
def balancedScan : List (Bool × List Char) → List (List Char) → Bool
  | [], stack => stack.isEmpty
  | (cl, nm) :: rest, stack =>
    if cl then
      match stack with
      | [] => false
      | top :: s => if top = lowerL nm then balancedScan rest s else false
    else balancedScan rest (lowerL nm :: stack)

/-- Well-formedness of a tag sequence. -/
def balancedTags (tags : List (Bool × List Char)) : Bool :=
  balancedScan tags []

/- ### Auxiliary definitions for the proofs -/

/-- Every stored parent link points to an older (smaller) id. -/
def parentLt (s : AState) : Prop :=
  ∀ c ∈ s.comments, ∀ p, c.parent = some p → p < c.id

/-- Rows carry the autoincrement ids 0,1,... in insertion order. -/
def idsSeq (s : AState) : Prop :=
  s.comments.map AComment.id = List.range s.nextId

/-- The nesting-depth invariant of the data model. -/
def depthOk (s : AState) : Prop :=
  ∀ c ∈ s.comments, get_depth s c ≤ 3

/-- The structural invariant of reachable comment stores. -/
def InvA (s : AState) : Prop :=
  idsSeq s ∧ parentLt s ∧ depthOk s

/-- A fresh captcha row with solution 7. -/
def tok7 : CaptchaToken :=
  { challenge := "3 + 4 = ?".data, solution := "7".data,
    created_at := 0, used_at := none }

/-- The same row after a successful submission at time 1. -/
def tok7used : CaptchaToken := markCaptchaUsed 1 tok7

/-- One root comment created through the list endpoint. -/
def rootState : AState := (serializer_create ⟨[], [], 0⟩ none).1

/-- The created root comment as returned by the serializer. -/
def rootComment : AComment := (serializer_create ⟨[], [], 0⟩ none).2

/-- Chain of comments 0 ← 1 ← 2 ← 3 built through the list endpoint. -/
def w2s2 : AState := (serializer_create rootState (some 0)).1

/-- Third link of the chain. -/
def w2s3 : AState := (serializer_create w2s2 (some 1)).1

/-- Fourth link of the chain: comment 3 sits at depth 3. -/
def w2s4 : AState := (serializer_create w2s3 (some 2)).1

/-- The chain after comment 3 has been marked as spam. -/
def w2State : AState := (mark_comment_as_spam w2s4 3).1

/-- The depth-3, inactive comment of `w2State`. -/
def pcW : AComment :=
  { id := 3, parent := some 2, is_active := false, is_moderated := true,
    replies_count := 0, likes_count := 0 }

/-- Escape the value component of an attribute pair. -/
def valEsc (a : List Char × List Char) : List Char × List Char :=
  (a.1, escHtml a.2)

/-- The change a second cleaning pass makes to one output piece:
text runs and attribute values get (idempotently) re-escaped. -/
def normItem : CItem → CItem
  | .run r => .run (escHtml r)
  | .tg cl nm attrs => .tg cl nm (attrs.map valEsc)

/-- The token list produced by re-scanning one rendered piece. -/
def itemToToks : CItem → List HTok
  | .run r => (escHtml r).map HTok.txt
  | .tg true nm _ => [.tag true nm []]
  | .tg false nm attrs => [.tag false nm (renderAttrsL attrs)]

/-- The token list produced by re-scanning a rendered output. -/
def itemsToToks (l : List CItem) : List HTok :=
  (l.map itemToToks).flatten

/-- Shape invariant of one cleaner output piece: runs are nonempty;
kept tags carry an allow-listed (lower-case) name, and attributes occur
only on an opening `a` and only from its attribute allow-list. -/
def itemOkB : CItem → Bool
  | .run r => !r.isEmpty
  | .tg cl nm attrs =>
    allowedB nm &&
      (if cl then attrs.isEmpty
       else if nm = "a".data then attrs.all (fun a => aAllowedAttr a.1)
       else attrs.isEmpty)

/-- No two adjacent text runs (the grouping always merges them). -/
def noAdjRuns : List CItem → Bool
  | .run _ :: .run _ :: _ => false
  | _ :: t => noAdjRuns t
  | [] => true

/-- Shape invariant of a cleaner output. -/
def itemsOk (l : List CItem) : Bool :=
  l.all itemOkB && noAdjRuns l

/-- The (closing, name) pairs of the kept tags of a cleaner output. -/
def tagsOfItems (l : List CItem) : List (Bool × List Char) :=
  l.filterMap (fun it =>
    match it with
    | .tg cl nm _ => some (cl, nm)
    | .run _ => none)

/-- Concatenation of just the escaped text runs of a clean-item list:
the value of the strip-tags fallback on the cleaned output. -/
def runsJoin (L : List CItem) : List Char :=
  (L.map (fun it =>
    match it with
    | .run r => escHtml r
    | .tg _ _ _ => [])).flatten

/-- No two adjacent characters form the substring composed of a slash
followed by a closing angle bracket; an invariant of rendered clean
output used to show the self-closing heuristic never fires on it. -/
def noSlashGtB : List Char → Bool
  | [] => true
  | [_] => true
  | c :: d :: t => !(c = '/' && d = '>') && noSlashGtB (d :: t)

/- ### Theorems -/

/-- The spam score of the C7 scenario text computes to 45: one keyword
hit (15), no case-sensitive `http` occurrence (0), full uppercase ratio
(30), no length outlier. -/
theorem spamScoreScenario45 : get_spam_score scenarioTextC7 = 45 := by
  unfold get_spam_score
  norm_num [show (spam_keywords.filter (fun k => containsSub k (lowerL scenarioTextC7))).length = 1 from by decide,
    show countSub "http".data scenarioTextC7 = 0 from by decide,
    show (scenarioTextC7.filter (fun c => isUpperAscii c)).length = 18 from by decide,
    show scenarioTextC7.length = 18 from by decide]

/-- Claim C7, counterexample.  For the scenario text — containing the
keyword viagra, three HTTP substrings and only uppercase characters —
`get_spam_score` returns 45, not the claimed clamped maximum of 100,
and the auto-moderation sweep leaves the comment visible because 45
does not exceed the threshold of 80. -/
theorem c7_score_counterexample :
    get_spam_score scenarioTextC7 = 45 ∧
    get_spam_score scenarioTextC7 ≠ 100 ∧
    detect_and_moderate_spam_step ⟨scenarioTextC7, true, false⟩ =
      ⟨scenarioTextC7, true, false⟩ := by
  refine ⟨spamScoreScenario45, by rw [spamScoreScenario45]; norm_num, ?_⟩
  unfold detect_and_moderate_spam_step
  rw [if_neg]
  rw [spamScoreScenario45]
  norm_num

/-- Claim C7, amended.  The keyword weight (15) plus the full
uppercase-ratio weight (30) give a score of exactly 45: the URL count
`comment_text.count('http')` is case-sensitive, so the uppercase HTTP
substrings contribute nothing, the clamp at 100 is not reached, and the
sweep of `detect_and_moderate_spam` does not hide the comment since the
score does not exceed 80. -/
theorem c7_score_amended :
    get_spam_score scenarioTextC7 = 45 ∧
    get_spam_score scenarioTextC7 ≤ 80 ∧
    (detect_and_moderate_spam_step ⟨scenarioTextC7, true, false⟩).is_active = true := by
  refine ⟨spamScoreScenario45, by rw [spamScoreScenario45]; norm_num, ?_⟩
  unfold detect_and_moderate_spam_step
  rw [if_neg]
  rw [spamScoreScenario45]
  norm_num

/-- Claim C8, counterexample.  Of 11 submissions from one IP within the
window, it is not the case that the first ten pass: the sixth (index 5)
is already rejected by `perform_create`. -/
theorem c8_rate_limit_counterexample :
    (rlOutcomes 11 0).take 10 ≠ List.replicate 10 true ∧
    (rlOutcomes 11 0)[5]? = some false := by
  refine ⟨by decide, by decide⟩

/-- Claim C8, amended.  The create-side limiter of
`CommentListCreateView.perform_create` admits at most 5 comments per IP
per hour: of 11 submissions in one window the first five are created
and the remaining six are rejected; the gate rejects exactly when the
counter has reached 5, and each accepted submission increments the
counter. -/
theorem c8_rate_limit_amended (count1 count2 : Nat)
    (h1 : 5 ≤ count1) (h2 : count2 < 5) :
    rlOutcomes 11 0 = List.replicate 5 true ++ List.replicate 6 false ∧
    perform_create_gate count1 = none ∧
    perform_create_gate count2 = some (count2 + 1) := by
  refine ⟨by decide, ?_, ?_⟩
  · simp [perform_create_gate, h1]
  · simp [perform_create_gate]
    omega

/-- Witness for the amended claim C8 at counters 7 and 3. -/
theorem c8_rate_limit_amended_witness :
    rlOutcomes 11 0 = List.replicate 5 true ++ List.replicate 6 false ∧
    perform_create_gate 7 = none ∧
    perform_create_gate 3 = some 4 :=
  c8_rate_limit_amended 7 3 (by decide) (by decide)

/-- Claim C9, confirmed.  Toggling the like of one (comment, ip) pair
twice restores the like row's `is_active` flag (when a row existed),
and always restores the comment's live `likes_count` and the reported
liked status. -/
theorem c9_double_toggle (b : Bool) (others : Nat) (st : Option Bool) :
    toggle_comment_like (toggle_comment_like (some b)) = some b ∧
    likes_count others (toggle_comment_like (toggle_comment_like st)) =
      likes_count others st ∧
    likeActive (toggle_comment_like (toggle_comment_like st)) = likeActive st := by
  refine ⟨by cases b <;> rfl, ?_, ?_⟩
  · cases st with
    | none => rfl
    | some b => cases b <;> rfl
  · cases st with
    | none => rfl
    | some b => cases b <;> rfl

/-- Claim C3, confirmed.  A submission that validated successfully
leaves the token with `used_at` set to the submission time, and no
later validation of that token can succeed, whatever time and solution
are presented — in particular not with the correct solution. -/
theorem c3_captcha_one_shot (t t' : CaptchaToken) (now1 now2 : Nat)
    (sol sol2 : List Char) (r : CaptchaToken)
    (h : submitWithCaptcha now1 (some t) sol = .ok t') :
    t'.used_at = some now1 ∧
    validateCommentCaptcha now2 (some t') sol2 ≠ .ok r := by
  have ht' : t' = markCaptchaUsed now1 t := by
    simp only [submitWithCaptcha, validateCommentCaptcha, validate_captcha_token] at h
    cases he : CaptchaToken.is_expired now1 t with
    | true => simp [he] at h
    | false =>
      cases hu : CaptchaToken.is_used t with
      | true => simp [he, hu] at h
      | false =>
        by_cases hs : t.solution ≠ sol
        · simp [he, hu, hs] at h
        · simp [he, hu, hs] at h
          exact h.symm
  subst ht'
  refine ⟨rfl, ?_⟩
  intro hok
  have hused : CaptchaToken.is_used (markCaptchaUsed now1 t) = true := by
    simp [CaptchaToken.is_used, markCaptchaUsed]
  simp only [validateCommentCaptcha, validate_captcha_token] at hok
  cases he : CaptchaToken.is_expired now2 (markCaptchaUsed now1 t) with
  | true => simp [he] at hok
  | false => simp [he, hused] at hok

/-- Witness for claim C3: the fresh token `tok7` is consumed at time 1
with the correct solution, and re-presenting the correct solution at
time 5 no longer validates. -/
theorem c3_captcha_one_shot_witness :
    tok7used.used_at = some 1 ∧
    validateCommentCaptcha 5 (some tok7used) "7".data ≠ .ok tok7used :=
  c3_captcha_one_shot tok7 tok7used 1 5 "7".data "7".data tok7used rfl

/-- Claim C4, confirmed.  Any validation attempt strictly more than 10
minutes (600 s) after `created_at` fails with the expired error,
whatever the submitted solution and whether or not the token was used
before (`t` ranges over used tokens too: expiry is checked first). -/
theorem c4_captcha_expiry (t : CaptchaToken) (now : Nat) (sol : List Char)
    (h : t.created_at + 600 < now) :
    validateCommentCaptcha now (some t) sol = .error .expired := by
  simp [validateCommentCaptcha, validate_captcha_token, CaptchaToken.is_expired, h]

/-- Witness for claim C4: the already-used token `tok7used` presented at
time 700 with its correct solution is reported expired, not used. -/
theorem c4_captcha_expiry_witness :
    validateCommentCaptcha 700 (some tok7used) "7".data = .error .expired :=
  c4_captcha_expiry tok7used 700 "7".data (by decide)

/-- Claim C10, confirmed.  The `captcha_image` endpoint serves the
challenge image for every existing unexpired token — `used_at` is never
consulted — and rejects only expired tokens (410) and unknown tokens
(404). -/
theorem c10_captcha_image (t : CaptchaToken) (now : Nat) :
    (t.is_expired now = false → captcha_image now (some t) = .image t.challenge) ∧
    (t.is_expired now = true → captcha_image now (some t) = .gone410) ∧
    captcha_image now none = .notFound404 := by
  refine ⟨?_, ?_, rfl⟩
  · intro h
    simp [captcha_image, h]
  · intro h
    simp [captcha_image, h]

/-- Witness for claim C10: the consumed token `tok7used` still yields
its image at time 300 (within the 10-minute lifetime), and yields 410
at time 700. -/
theorem c10_captcha_image_witness :
    captcha_image 300 (some tok7used) = .image tok7used.challenge ∧
    captcha_image 700 (some tok7used) = .gone410 :=
  ⟨(c10_captcha_image tok7used 300).1 (by decide),
   (c10_captcha_image tok7used 700).2.1 (by decide)⟩
theorem findC_updComment (s : AState) (cid pid : Nat) (f : AComment → AComment)
    (hid : ∀ c, (f c).id = c.id) :
    findC (updComment s cid f) pid =
      (findC s pid).map (fun c => if c.id = cid then f c else c) := by
  unfold findC updComment
  simp only
  rw [List.find?_map]
  have hpred : ((fun c => decide (c.id = pid)) ∘ fun c => if c.id = cid then f c else c)
      = (fun c : AComment => decide (c.id = pid)) := by
    funext c
    by_cases h : c.id = cid <;> simp [h, hid c]
  rw [hpred]

theorem find?_append_left {α : Type} (l1 l2 : List α) (p : α → Bool)
    (h : (l1.find? p).isSome = true) : (l1 ++ l2).find? p = l1.find? p := by
  rw [List.find?_append]
  cases hf : l1.find? p with
  | none => rw [hf] at h; simp at h
  | some a => simp

theorem findC_ext (s s' : AState) (pid : Nat) (h : s.comments = s'.comments) :
    findC s pid = findC s' pid := by
  unfold findC
  rw [h]

theorem allChildren_updComment (s : AState) (cid pid : Nat) (f : AComment → AComment)
    (hpar : ∀ c, (f c).parent = c.parent) :
    allChildren (updComment s cid f) pid = allChildren s pid := by
  unfold allChildren updComment
  simp only
  rw [← List.countP_eq_length_filter, ← List.countP_eq_length_filter, List.countP_map]
  have hpred : ((fun c => decide (c.parent = some pid)) ∘ fun c => if c.id = cid then f c else c)
      = (fun c : AComment => decide (c.parent = some pid)) := by
    funext c
    by_cases h : c.id = cid <;> simp [h, hpar c]
  rw [hpred]

theorem activeChildren_updComment (s : AState) (cid pid : Nat) (f : AComment → AComment)
    (hpar : ∀ c, (f c).parent = c.parent) (hact : ∀ c, (f c).is_active = c.is_active) :
    activeChildren (updComment s cid f) pid = activeChildren s pid := by
  unfold activeChildren updComment
  simp only
  rw [← List.countP_eq_length_filter, ← List.countP_eq_length_filter, List.countP_map]
  have hpred : ((fun c => c.parent = some pid && c.is_active) ∘ fun c => if c.id = cid then f c else c)
      = (fun c : AComment => c.parent = some pid && c.is_active) := by
    funext c
    by_cases h : c.id = cid <;> simp [h, hpar c, hact c]
  rw [hpred]

theorem serializer_create_parent_count (s : AState) (pid : Nat)
    (hp : (findC s pid).isSome = true) :
    (findC (serializer_create s (some pid)).1 pid).map AComment.replies_count
      = some (allChildren (serializer_create s (some pid)).1 pid) := by
  obtain ⟨c0, hc0⟩ := Option.isSome_iff_exists.mp hp
  have hc0id : c0.id = pid := by
    have := List.find?_some hc0
    simpa using this
  simp only [serializer_create, comment_post_save_created]
  set newc : AComment :=
    { id := s.nextId, parent := some pid, is_active := true, is_moderated := false,
      replies_count := 0, likes_count := 0 } with hnewc
  set s1 : AState := { s with comments := s.comments ++ [newc], nextId := s.nextId + 1 } with hs1
  have hfind1 : findC s1 pid = some c0 := by
    show (s.comments ++ [newc]).find? (fun c => c.id = pid) = some c0
    rw [find?_append_left _ _ _ (by rw [show s.comments.find? (fun c => c.id = pid) = some c0 from hc0]; rfl)]
    exact hc0
  set fsig : AComment → AComment :=
    fun pc => { pc with replies_count := activeChildren s1 pid } with hfsig
  set s2 : AState := updComment s1 pid fsig with hs2
  set fupd : AComment → AComment :=
    fun pc => { pc with replies_count := allChildren s2 pid } with hfupd
  have e1 : findC (updComment s2 pid fupd) pid
      = (findC s2 pid).map (fun c => if c.id = pid then fupd c else c) :=
    findC_updComment s2 pid pid fupd (fun c => rfl)
  have e2 : findC s2 pid = (findC s1 pid).map (fun c => if c.id = pid then fsig c else c) :=
    findC_updComment s1 pid pid fsig (fun c => rfl)
  have e3 : allChildren (updComment s2 pid fupd) pid = allChildren s2 pid :=
    allChildren_updComment s2 pid pid fupd (fun c => rfl)
  rw [e1, e2, e3, hfind1]
  simp [hc0id, hfsig, hfupd]

theorem mark_spam_replies_counts (s : AState) (cid : Nat) :
    (mark_comment_as_spam s cid).1.comments.map AComment.replies_count
      = s.comments.map AComment.replies_count := by
  unfold mark_comment_as_spam
  cases hf : findC s cid with
  | none => rfl
  | some c =>
    simp only [updComment, List.map_map]
    congr 1
    funext c2
    by_cases h : c2.id = cid <;> simp [h]

theorem like_create_count (s : AState) (cid ip : Nat)
    (hc : (findC s cid).isSome = true) :
    (findC (like_create s cid ip) cid).map AComment.likes_count
      = some (likesOf (like_create s cid ip) cid) := by
  obtain ⟨c0, hc0⟩ := Option.isSome_iff_exists.mp hc
  have hc0id : c0.id = cid := by
    have := List.find?_some hc0
    simpa using this
  unfold like_create
  set s1 : AState := { s with likes := s.likes ++ [(cid, ip)] } with hs1
  set flike : AComment → AComment :=
    fun c => { c with likes_count := likesOf s1 cid } with hflike
  have e1 : findC (updComment s1 cid flike) cid
      = (findC s1 cid).map (fun c => if c.id = cid then flike c else c) :=
    findC_updComment s1 cid cid flike (fun c => rfl)
  have e2 : findC s1 cid = findC s cid := findC_ext _ _ _ rfl
  have e3 : likesOf (updComment s1 cid flike) cid = likesOf s1 cid := rfl
  rw [e1, e2, e3, hc0]
  simp [hc0id, hflike]

/-- Claim C1, amended.  After a reply is created through the serializer
the parent's stored `replies_count` equals the total child count — the
post_save signal recomputes the active-child count, but
`CommentSerializer.create` then overwrites it with the unfiltered
`parent.replies.count()`; `mark_comment_as_spam` changes no
`replies_count` at all (so the parent's counter goes stale when a child
is hidden); and after a like is created, `likes_count` equals the total
like-row count of the comment (`CommentLike` in this app has no
`is_active` flag).  Counters are recomputed from row counts, never
blindly incremented. -/
theorem c1_counters_amended (s : AState) (pid cid cid2 ip : Nat)
    (hp : (findC s pid).isSome = true) (hc : (findC s cid2).isSome = true) :
    (findC (serializer_create s (some pid)).1 pid).map AComment.replies_count
      = some (allChildren (serializer_create s (some pid)).1 pid) ∧
    (mark_comment_as_spam s cid).1.comments.map AComment.replies_count
      = s.comments.map AComment.replies_count ∧
    (findC (like_create s cid2 ip) cid2).map AComment.likes_count
      = some (likesOf (like_create s cid2 ip) cid2) :=
  ⟨serializer_create_parent_count s pid hp, mark_spam_replies_counts s cid, like_create_count s cid2 ip hc⟩

/-- Witness for the amended claim C1 on a one-comment store. -/
theorem c1_counters_amended_witness :
    (findC (serializer_create rootState (some 0)).1 0).map AComment.replies_count
      = some (allChildren (serializer_create rootState (some 0)).1 0) ∧
    (mark_comment_as_spam rootState 0).1.comments.map AComment.replies_count
      = rootState.comments.map AComment.replies_count ∧
    (findC (like_create rootState 0 7) 0).map AComment.likes_count
      = some (likesOf (like_create rootState 0 7) 0) :=
  c1_counters_amended rootState 0 0 0 7 (by decide) (by decide)

/-- Claim C1, counterexample.  Create a root comment and one reply
through the serializer, then mark the reply as spam: the root's stored
`replies_count` stays 1 while it has 0 active children, violating the
claimed invariant (the spam-marking path never recomputes the parent's
counter). -/
theorem c1_counters_counterexample :
    (findC c1State 0).map AComment.replies_count = some 1 ∧
    activeChildren c1State 0 = 0 := by
  refine ⟨by decide, by decide⟩

theorem depthFuel_none (s : AState) (fuel : Nat) : depthFuel s fuel none = 0 := by
  cases fuel <;> rfl

theorem depthFuel_succ_found (s : AState) (fuel p : Nat) (c : AComment)
    (h : findC s p = some c) :
    depthFuel s (fuel + 1) (some p) = 1 + depthFuel s fuel c.parent := by
  simp only [depthFuel, h]

theorem depthFuel_ext (s s' : AState) (h : s.comments = s'.comments) :
    ∀ fuel q, depthFuel s fuel q = depthFuel s' fuel q := by
  intro fuel
  induction fuel with
  | zero => intro q; cases q <;> rfl
  | succ n ih =>
    intro q
    cases q with
    | none => rfl
    | some p =>
      have hfp : findC s p = findC s' p := findC_ext s s' p h
      cases hf : findC s' p with
      | none => simp only [depthFuel, hfp, hf]
      | some c =>
        rw [depthFuel_succ_found s n p c (by rw [hfp, hf]),
          depthFuel_succ_found s' n p c hf, ih]

theorem depthFuel_updComment (s : AState) (cid : Nat) (f : AComment → AComment)
    (hid : ∀ c, (f c).id = c.id) (hpar : ∀ c, (f c).parent = c.parent) :
    ∀ fuel q, depthFuel (updComment s cid f) fuel q = depthFuel s fuel q := by
  intro fuel
  induction fuel with
  | zero => intro q; cases q <;> rfl
  | succ n ih =>
    intro q
    cases q with
    | none => rfl
    | some p =>
      have hmap : findC (updComment s cid f) p
          = (findC s p).map (fun c => if c.id = cid then f c else c) :=
        findC_updComment s cid p f hid
      cases hf : findC s p with
      | none => simp only [depthFuel, hmap, hf, Option.map_none']
      | some c =>
        have hg : findC (updComment s cid f) p = some (if c.id = cid then f c else c) := by
          rw [hmap, hf, Option.map_some']
        rw [depthFuel_succ_found _ n p _ hg, depthFuel_succ_found s n p c hf]
        have hp2 : (if c.id = cid then f c else c).parent = c.parent := by
          split <;> simp [hpar]
        rw [hp2, ih]

theorem findC_of_lt (s : AState) (pid : Nat) (hids : idsSeq s) (hlt : pid < s.nextId) :
    ∃ c, findC s pid = some c ∧ c ∈ s.comments ∧ c.id = pid := by
  have hmem : pid ∈ s.comments.map AComment.id := by
    rw [hids]
    simpa using hlt
  obtain ⟨c, hcm, hcid⟩ := List.mem_map.mp hmem
  have hsome : (s.comments.find? (fun c => c.id = pid)).isSome = true := by
    rw [List.find?_isSome]
    exact ⟨c, hcm, by simp [hcid]⟩
  obtain ⟨c2, hc2⟩ := Option.isSome_iff_exists.mp hsome
  refine ⟨c2, hc2, List.mem_of_find?_eq_some hc2, ?_⟩
  have := List.find?_some hc2
  simpa using this

theorem depthFuel_append (s : AState) (newc : AComment) (s1 : AState)
    (hcom : s1.comments = s.comments ++ [newc])
    (hids : idsSeq s) (hlt : parentLt s) :
    ∀ fuel pid, pid < s.nextId →
      depthFuel s1 fuel (some pid) = depthFuel s fuel (some pid) := by
  intro fuel
  induction fuel with
  | zero => intro pid _; rfl
  | succ n ih =>
    intro pid hpid
    obtain ⟨c, hfc, hcm, hcid⟩ := findC_of_lt s pid hids hpid
    have hfc1 : findC s1 pid = some c := by
      have he : findC s1 pid = (s.comments ++ [newc]).find? (fun c => c.id = pid) := by
        unfold findC; rw [hcom]
      rw [he, find?_append_left _ _ _ (by rw [show s.comments.find? (fun c => c.id = pid) = some c from hfc]; rfl)]
      exact hfc
    rw [depthFuel_succ_found s1 n pid c hfc1, depthFuel_succ_found s n pid c hfc]
    cases hpar : c.parent with
    | none => rw [depthFuel_none, depthFuel_none]
    | some q =>
      have hq : q < c.id := hlt c hcm q hpar
      rw [ih q (by omega)]

theorem depthFuel_fuel (s : AState) (hids : idsSeq s) (hlt : parentLt s) :
    ∀ pid fuel1 fuel2, pid < s.nextId → pid < fuel1 → pid < fuel2 →
      depthFuel s fuel1 (some pid) = depthFuel s fuel2 (some pid) := by
  intro pid
  induction pid using Nat.strong_induction_on with
  | _ pid ih =>
    intro fuel1 fuel2 hpid h1 h2
    obtain ⟨a, ha⟩ : ∃ a, fuel1 = a + 1 := ⟨fuel1 - 1, by omega⟩
    obtain ⟨b, hb⟩ : ∃ b, fuel2 = b + 1 := ⟨fuel2 - 1, by omega⟩
    subst ha hb
    obtain ⟨c, hfc, hcm, hcid⟩ := findC_of_lt s pid hids hpid
    rw [depthFuel_succ_found s a pid c hfc, depthFuel_succ_found s b pid c hfc]
    cases hpar : c.parent with
    | none => rw [depthFuel_none, depthFuel_none]
    | some q =>
      have hq : q < c.id := hlt c hcm q hpar
      rw [ih q (by omega) a b (by omega) (by omega) (by omega)]

theorem lengthComments_eq_nextId (s : AState) (hids : idsSeq s) :
    s.comments.length = s.nextId := by
  have := congrArg List.length hids
  simpa using this

theorem invA_ext (s s' : AState) (hc : s.comments = s'.comments)
    (hn : s.nextId = s'.nextId) (h : InvA s) : InvA s' := by
  obtain ⟨hids, hlt, hdep⟩ := h
  refine ⟨?_, ?_, ?_⟩
  · unfold idsSeq at *
    rw [← hc, ← hn]
    exact hids
  · intro c hcm p hp
    rw [← hc] at hcm
    exact hlt c hcm p hp
  · intro c hcm
    rw [← hc] at hcm
    have hd := hdep c hcm
    unfold get_depth at hd ⊢
    rw [depthFuel_ext s' s hc.symm, ← hc]
    exact hd

theorem validate_parent_some (s : AState) (pid : Nat)
    (hok : serializer_validate_parent s (some pid) = .ok ()) :
    ∃ pc, findC s pid = some pc ∧ can_reply s pc = true := by
  simp only [serializer_validate_parent] at hok
  cases hf : findC s pid with
  | none => rw [hf] at hok; exact absurd hok (by simp)
  | some pc =>
    rw [hf] at hok
    by_cases hcr : can_reply s pc = true
    · exact ⟨pc, rfl, hcr⟩
    · simp [hcr] at hok

theorem invA_updComment (s : AState) (cid : Nat) (f : AComment → AComment)
    (hid : ∀ c, (f c).id = c.id) (hpar : ∀ c, (f c).parent = c.parent)
    (hInv : InvA s) : InvA (updComment s cid f) := by
  obtain ⟨hids, hlt, hdep⟩ := hInv
  have hgid : ∀ c : AComment, ((fun c => if c.id = cid then f c else c) c).id = c.id := by
    intro c; by_cases h : c.id = cid <;> simp [h, hid c]
  have hgpar : ∀ c : AComment, ((fun c => if c.id = cid then f c else c) c).parent = c.parent := by
    intro c; by_cases h : c.id = cid <;> simp [h, hpar c]
  refine ⟨?_, ?_, ?_⟩
  · unfold idsSeq updComment at *
    simp only [List.map_map]
    rw [show (AComment.id ∘ fun c => if c.id = cid then f c else c) = AComment.id from
      funext fun c => hgid c]
    exact hids
  · intro c hcm p hp
    simp only [updComment, List.mem_map] at hcm
    obtain ⟨c0, hc0m, rfl⟩ := hcm
    rw [hgpar c0] at hp
    rw [hgid c0]
    exact hlt c0 hc0m p hp
  · intro c hcm
    simp only [updComment, List.mem_map] at hcm
    obtain ⟨c0, hc0m, rfl⟩ := hcm
    unfold get_depth
    have hlen : (updComment s cid f).comments.length = s.comments.length := by
      simp [updComment]
    rw [hlen, hgpar c0, depthFuel_updComment s cid f hid hpar]
    exact hdep c0 hc0m

theorem invA_mark_spam (s : AState) (cid : Nat) (h : InvA s) :
    InvA (mark_comment_as_spam s cid).1 := by
  unfold mark_comment_as_spam
  cases hf : findC s cid with
  | none => exact h
  | some c =>
    exact invA_updComment s cid _ (fun c => rfl) (fun c => rfl) h

theorem invA_like_create (s : AState) (cid ip : Nat) (h : InvA s) :
    InvA (like_create s cid ip) := by
  unfold like_create
  exact invA_updComment _ cid _ (fun c => rfl) (fun c => rfl)
    (invA_ext s _ rfl rfl h)

theorem id_lt_nextId (s : AState) (c : AComment) (hids : idsSeq s)
    (hm : c ∈ s.comments) : c.id < s.nextId := by
  have : c.id ∈ s.comments.map AComment.id := List.mem_map.mpr ⟨c, hm, rfl⟩
  rw [hids] at this
  simpa using this

theorem invA_append_new (s : AState) (p : Option Nat) (hInv : InvA s)
    (hplt : ∀ pid, p = some pid → pid < s.nextId)
    (hdepnew : ∀ pid, p = some pid →
      depthFuel s (s.comments.length + 1) (some pid) ≤ 3) :
    InvA { s with
      comments := s.comments ++
        [{ id := s.nextId, parent := p, is_active := true, is_moderated := false,
           replies_count := 0, likes_count := 0 }],
      nextId := s.nextId + 1 } := by
  obtain ⟨hids, hlt, hdep⟩ := hInv
  have hlen : s.comments.length = s.nextId := lengthComments_eq_nextId s hids
  set newc : AComment :=
    { id := s.nextId, parent := p, is_active := true, is_moderated := false,
      replies_count := 0, likes_count := 0 } with hnewc
  set s1 : AState := { s with comments := s.comments ++ [newc], nextId := s.nextId + 1 } with hs1
  have happ : ∀ fuel pid, pid < s.nextId →
      depthFuel s1 fuel (some pid) = depthFuel s fuel (some pid) :=
    depthFuel_append s newc s1 rfl hids hlt
  refine ⟨?_, ?_, ?_⟩
  · unfold idsSeq
    show (s.comments ++ [newc]).map AComment.id = List.range (s.nextId + 1)
    rw [List.map_append, hids]
    simpa using (List.range_succ (n := s.nextId)).symm
  · intro c hcm q hq
    rcases List.mem_append.mp hcm with hold | hnew
    · exact hlt c hold q hq
    · have hceq : c = newc := by simpa using hnew
      subst hceq
      have hpq : p = some q := hq
      have := hplt q hpq
      simpa [hnewc] using this
  · intro c hcm
    have hlen1 : s1.comments.length = s.comments.length + 1 := by
      simp [hs1]
    unfold get_depth
    rw [hlen1]
    rcases List.mem_append.mp hcm with hold | hnew
    · cases hq : c.parent with
      | none => rw [depthFuel_none]; omega
      | some q =>
        have hqlt : q < c.id := hlt c hold q hq
        have hidlt : c.id < s.nextId := id_lt_nextId s c hids hold
        rw [happ _ q (by omega),
          depthFuel_fuel s hids hlt q (s.comments.length + 1) s.comments.length
            (by omega) (by omega) (by omega)]
        have hd := hdep c hold
        unfold get_depth at hd
        rw [hq] at hd
        exact hd
    · have hceq : c = newc := by simpa using hnew
      subst hceq
      cases hp : p with
      | none =>
        have hpn : newc.parent = none := by simp [hnewc, hp]
        rw [hpn, depthFuel_none]
        omega
      | some pid =>
        have hpar : newc.parent = some pid := by simp [hnewc, hp]
        rw [hpar, happ _ pid (hplt pid hp)]
        have := hdepnew pid hp
        omega

theorem invA_serializer_create (s : AState) (p : Option Nat) (hInv : InvA s)
    (hok : serializer_validate_parent s p = .ok ()) :
    InvA (serializer_create s p).1 := by
  have hids := hInv.1
  have hlen : s.comments.length = s.nextId := lengthComments_eq_nextId s hInv.1
  have hplt : ∀ pid, p = some pid → pid < s.nextId := by
    intro pid hpeq
    subst hpeq
    obtain ⟨pc, hf, hcr⟩ := validate_parent_some s pid hok
    have hpcm : pc ∈ s.comments := List.mem_of_find?_eq_some hf
    have hpcid : pc.id = pid := by have := List.find?_some hf; simpa using this
    have := id_lt_nextId s pc hids hpcm
    omega
  have hdepnew : ∀ pid, p = some pid →
      depthFuel s (s.comments.length + 1) (some pid) ≤ 3 := by
    intro pid hpeq
    subst hpeq
    obtain ⟨pc, hf, hcr⟩ := validate_parent_some s pid hok
    rw [depthFuel_succ_found s s.comments.length pid pc hf]
    have hcr2 : get_depth s pc < 3 := by
      unfold can_reply at hcr
      simpa using hcr
    unfold get_depth at hcr2
    omega
  have hInv1 := invA_append_new s p hInv hplt hdepnew
  cases p with
  | none => exact hInv1
  | some pid =>
    exact invA_updComment _ pid _ (fun c => rfl) (fun c => rfl)
      (invA_updComment _ pid _ (fun c => rfl) (fun c => rfl) hInv1)

theorem create_list_ok_state (s s2 : AState) (p : Option Nat) (c : AComment)
    (heq : create_via_list_endpoint s p = .ok (s2, c)) :
    serializer_validate_parent s p = .ok () ∧ s2 = (serializer_create s p).1 := by
  unfold create_via_list_endpoint at heq
  cases hv : serializer_validate_parent s p with
  | error e => rw [hv] at heq; exact absurd heq (by simp)
  | ok u =>
    cases u
    rw [hv] at heq
    simp only [Except.ok.injEq] at heq
    constructor
    · simp [hv]
    · rw [heq]

theorem create_reply_ok_state (s s2 : AState) (pid : Nat) (c : AComment)
    (heq : create_via_reply_endpoint s pid = .ok (s2, c)) :
    create_via_list_endpoint s (some pid) = .ok (s2, c) := by
  unfold create_via_reply_endpoint at heq
  cases hf : findC s pid with
  | none => rw [hf] at heq; exact absurd heq (by simp)
  | some pc =>
    simp only [hf] at heq
    by_cases ha : pc.is_active = true
    · rw [if_neg (by simp [ha])] at heq
      by_cases hcr : can_reply s pc = true
      · rw [if_neg (by simp [hcr])] at heq
        exact heq
      · rw [if_pos (by simpa using hcr)] at heq
        exact absurd heq (by simp)
    · rw [if_pos (by simpa using ha)] at heq
      exact absurd heq (by simp)

theorem reach_invA (s : AState) (h : ReachA s) : InvA s := by
  induction h with
  | init =>
    refine ⟨?_, ?_, ?_⟩
    · unfold idsSeq
      simp
    · intro c hc p hp
      simp at hc
    · intro c hc
      simp at hc
  | stepList hr heq ih =>
    obtain ⟨hok, hs2⟩ := create_list_ok_state _ _ _ _ heq
    rw [hs2]
    exact invA_serializer_create _ _ ih hok
  | stepReply hr heq ih =>
    obtain ⟨hok, hs2⟩ := create_list_ok_state _ _ _ _ (create_reply_ok_state _ _ _ _ heq)
    rw [hs2]
    exact invA_serializer_create _ _ ih hok
  | stepSpam cid hr ih => exact invA_mark_spam _ cid ih
  | stepLike cid ip hr ih => exact invA_like_create _ cid ip ih

/-- Claim C2, amended.  In every reachable store the depth of every
comment is at most 3; both endpoints reject a reply under a parent
whose `can_reply` is false (depth 3); and the reply endpoint rejects an
inactive parent with a not-found error.  (The generic create endpoint
does not check the parent's activity — see the counterexample.) -/
theorem c2_depth_amended (s : AState) (pid : Nat) (pc c : AComment)
    (hr : ReachA s) (hmem : c ∈ s.comments) (hf : findC s pid = some pc) :
    get_depth s c ≤ 3 ∧
    (can_reply s pc = false → create_via_list_endpoint s (some pid) = .error .maxDepth) ∧
    (can_reply s pc = false → (create_via_reply_endpoint s pid).isOk = false) ∧
    (pc.is_active = false → create_via_reply_endpoint s pid = .error .parentMissing) := by
  refine ⟨(reach_invA s hr).2.2 c hmem, ?_, ?_, ?_⟩
  · intro hcr
    unfold create_via_list_endpoint serializer_validate_parent
    simp only [hf]
    rw [if_pos (by simp [hcr])]
  · intro hcr
    unfold create_via_reply_endpoint
    simp only [hf]
    by_cases ha : pc.is_active = true
    · rw [if_neg (by simp [ha]), if_pos (by simp [hcr])]
      rfl
    · rw [if_pos (by simpa using ha)]
      rfl
  · intro ha
    unfold create_via_reply_endpoint
    simp only [hf]
    rw [if_pos (by simp [ha])]

theorem reach_rootState : ReachA rootState :=
  @ReachA.stepList ⟨[], [], 0⟩ rootState none rootComment ReachA.init rfl

theorem reach_w2State : ReachA w2State :=
  ReachA.stepSpam 3
    (@ReachA.stepList w2s3 w2s4 (some 2) (serializer_create w2s3 (some 2)).2
      (@ReachA.stepList w2s2 w2s3 (some 1) (serializer_create w2s2 (some 1)).2
        (@ReachA.stepList rootState w2s2 (some 0) (serializer_create rootState (some 0)).2
          reach_rootState rfl)
        rfl)
      rfl)

/-- Witness for the amended claim C2 on the reachable chain
0 ← 1 ← 2 ← 3 whose depth-3 comment was marked as spam. -/
theorem c2_depth_amended_witness :
    get_depth w2State pcW ≤ 3 ∧
    create_via_list_endpoint w2State (some 3) = .error .maxDepth ∧
    (create_via_reply_endpoint w2State 3).isOk = false ∧
    create_via_reply_endpoint w2State 3 = .error .parentMissing := by
  have h := c2_depth_amended w2State 3 pcW pcW reach_w2State (by decide) (by decide)
  exact ⟨h.1, h.2.1 (by decide), h.2.2.1 (by decide), h.2.2.2 (by decide)⟩

/-- Claim C2, counterexample.  A comment store whose only (root)
comment is inactive: a create request through the list endpoint naming
it as parent passes `CommentSerializer.validate` — which checks only
`can_reply`, not `is_active` — and creates the reply, so requests whose
parent is inactive are not universally rejected. -/
theorem c2_inactive_parent_counterexample :
    (findC c2State 0).map AComment.is_active = some false ∧
    (create_via_list_endpoint c2State (some 0)).isOk = true ∧
    (serializer_create c2State (some 0)).2.parent = some 0 := by
  refine ⟨by decide, ?_, by decide⟩
  show (Except.ok (serializer_create c2State (some 0))).isOk = true
  rfl
theorem spanP_join (p : Char → Bool) (l : List Char) :
    (spanP p l).1 ++ (spanP p l).2 = l := by
  induction l with
  | nil => rfl
  | cons c t ih =>
    by_cases h : p c = true
    · simp [spanP, h, ih]
    · simp [spanP, h]

theorem spanP_snd_length_le (p : Char → Bool) (l : List Char) :
    (spanP p l).2.length ≤ l.length := by
  induction l with
  | nil => simp [spanP]
  | cons c t ih =>
    by_cases h : p c = true
    · simp only [spanP, h, if_true]
      simpa using Nat.le_succ_of_le ih
    · simp [spanP, h]

theorem spanP_stop (p : Char → Bool) (c : Char) (t : List Char) (h : p c = false) :
    spanP p (c :: t) = ([], c :: t) := by
  simp [spanP, h]

theorem spanP_sat_append (p : Char → Bool) (a b : List Char)
    (ha : ∀ c ∈ a, p c = true) :
    spanP p (a ++ b) = (a ++ (spanP p b).1, (spanP p b).2) := by
  induction a with
  | nil => simp
  | cons c t ih =>
    have hc : p c = true := ha c (by simp)
    simp only [List.cons_append, spanP, hc, if_true, List.append_eq]
    rw [ih (fun d hd => ha d (by simp [hd]))]

theorem spanP_sat_stop (p : Char → Bool) (a : List Char) (c : Char) (b : List Char)
    (ha : ∀ d ∈ a, p d = true) (hc : p c = false) :
    spanP p (a ++ c :: b) = (a, c :: b) := by
  rw [spanP_sat_append p a (c :: b) ha, spanP_stop p c b hc]
  simp

theorem escHtml_safe (s : List Char) : safeChars (escHtml s) = true := by
  induction s using escHtml.induct <;> simp_all [escHtml, safeChars]

theorem escHtml_ampOk (s : List Char) : ampOk (escHtml s) = true := by
  induction s using escHtml.induct <;> simp_all [escHtml, ampOk]

theorem safeChars_mem (l : List Char) (h : safeChars l = true) (c : Char) (hc : c ∈ l) :
    c ≠ '<' ∧ c ≠ '>' ∧ c ≠ '"' := by
  unfold safeChars at h
  have h2 := List.all_eq_true.mp h c hc
  simp at h2
  exact ⟨h2.1.1, h2.1.2, h2.2⟩

theorem safeChars_append (a b : List Char) (ha : safeChars a = true) (hb : safeChars b = true) :
    safeChars (a ++ b) = true := by
  unfold safeChars at *
  rw [List.all_append, ha, hb]
  rfl

theorem ampOk_append (a b : List Char) (ha : ampOk a = true) (hb : ampOk b = true) :
    ampOk (a ++ b) = true := by
  induction a using ampOk.induct <;> simp_all [ampOk]

theorem escHtml_fixed (s : List Char) (ha : ampOk s = true) (hs : safeChars s = true) :
    escHtml s = s := by
  induction s using escHtml.induct <;> simp_all [escHtml, ampOk, safeChars]

theorem escHtml_idem (s : List Char) : escHtml (escHtml s) = escHtml s :=
  escHtml_fixed (escHtml s) (escHtml_ampOk s) (escHtml_safe s)

theorem escHtml_ne_nil (s : List Char) (h : s ≠ []) : escHtml s ≠ [] := by
  cases s using escHtml.induct <;> simp_all [escHtml]

theorem matchTagCore_rest_length (cl : Bool) (l : List Char) (cl2 : Bool)
    (nm ins r : List Char) (h : matchTagCore cl l = some (cl2, nm, ins, r)) :
    r.length < l.length := by
  cases l with
  | nil => simp [matchTagCore] at h
  | cons c t =>
    simp only [matchTagCore] at h
    split at h
    · split at h
      · rename_i r5 heq
        simp only [Option.some.injEq, Prod.mk.injEq] at h
        have hr : r = r5 := h.2.2.2.symm
        subst hr
        have e1 : (spanP isAlnumAscii t).2.length ≤ t.length := spanP_snd_length_le _ t
        have e2 : (spanP (fun d => d ≠ '>') (spanP isAlnumAscii t).2).2.length
            ≤ (spanP isAlnumAscii t).2.length := spanP_snd_length_le _ _
        rw [heq] at e2
        simp only [List.length_cons] at e2 ⊢
        omega
      · simp at h
    · simp at h

theorem matchTag_rest_length (l : List Char) (cl : Bool) (nm ins r : List Char)
    (h : matchTag l = some (cl, nm, ins, r)) : r.length < l.length := by
  unfold matchTag at h
  split at h
  · rename_i r0
    have := matchTagCore_rest_length true r0 cl nm ins r h
    simp only [List.length_cons]
    omega
  · rename_i r0 hne
    have := matchTagCore_rest_length false r0 cl nm ins r h
    simp only [List.length_cons]
    omega
  · simp at h

theorem lexFuel_adequate (n : Nat) :
    ∀ l : List Char, l.length ≤ n → ∀ fuel1 fuel2, l.length ≤ fuel1 → l.length ≤ fuel2 →
      lexFuel fuel1 l = lexFuel fuel2 l := by
  induction n with
  | zero =>
    intro l hl fuel1 fuel2 h1 h2
    have : l = [] := List.eq_nil_of_length_eq_zero (by omega)
    subst this
    cases fuel1 <;> cases fuel2 <;> rfl
  | succ n ih =>
    intro l hl fuel1 fuel2 h1 h2
    cases l with
    | nil => cases fuel1 <;> cases fuel2 <;> rfl
    | cons c t =>
      obtain ⟨a, ha⟩ : ∃ a, fuel1 = a + 1 := ⟨fuel1 - 1, by simp at h1; omega⟩
      obtain ⟨b, hb⟩ : ∃ b, fuel2 = b + 1 := ⟨fuel2 - 1, by simp at h2; omega⟩
      subst ha hb
      cases hm : matchTag (c :: t) with
      | none =>
        simp only [lexFuel, hm]
        rw [ih t (by simp at hl; omega) a b (by simp at h1; omega) (by simp at h2; omega)]
      | some res =>
        obtain ⟨cl, nm, ins, r⟩ := res
        have hlt := matchTag_rest_length (c :: t) cl nm ins r hm
        simp only [List.length_cons] at hlt
        simp only [lexFuel, hm]
        rw [ih r (by simp at hl; omega) a b (by simp at h1; omega) (by simp at h2; omega)]

theorem lexHtml_nil : lexHtml [] = [] := rfl

theorem lexHtml_tag (l : List Char) (cl : Bool) (nm ins r : List Char)
    (h : matchTag l = some (cl, nm, ins, r)) :
    lexHtml l = .tag cl nm ins :: lexHtml r := by
  cases l with
  | nil => simp [matchTag] at h
  | cons c t =>
    have hlt := matchTag_rest_length (c :: t) cl nm ins r h
    unfold lexHtml
    simp only [List.length_cons, lexFuel, h]
    rw [lexFuel_adequate r.length r (le_refl _) t.length r.length (by simp at hlt; omega) (le_refl _)]

theorem matchTag_none_head (c : Char) (t : List Char) (h : c ≠ '<') :
    matchTag (c :: t) = none := by
  unfold matchTag
  split <;> simp_all

theorem lexHtml_txt (c : Char) (t : List Char) (h : matchTag (c :: t) = none) :
    lexHtml (c :: t) = .txt c :: lexHtml t := by
  unfold lexHtml
  simp only [List.length_cons, lexFuel, h]

theorem lexHtml_append_txt (a b : List Char) (ha : ∀ c ∈ a, c ≠ '<') :
    lexHtml (a ++ b) = a.map HTok.txt ++ lexHtml b := by
  induction a with
  | nil => simp
  | cons c t ih =>
    have h1 : matchTag (c :: (t ++ b)) = none := matchTag_none_head c _ (ha c (by simp))
    rw [List.cons_append, lexHtml_txt c _ h1, ih (fun d hd => ha d (by simp [hd]))]
    simp

theorem allowedB_cases (nm : List Char) (h : allowedB nm = true) :
    nm = "i".data ∨ nm = "strong".data ∨ nm = "code".data ∨ nm = "a".data := by
  unfold allowedB at h
  simp only [Bool.or_eq_true, decide_eq_true_eq] at h
  tauto

theorem aAllowedAttr_cases (nm : List Char) (h : aAllowedAttr nm = true) :
    nm = "href".data ∨ nm = "title".data := by
  unfold aAllowedAttr at h
  simp only [Bool.or_eq_true, decide_eq_true_eq] at h
  tauto

theorem matchTag_head_not_slash (c : Char) (l : List Char) (h : c ≠ '/') :
    matchTag ('<' :: c :: l) = matchTagCore false (c :: l) := by
  unfold matchTag
  split <;> simp_all

theorem spanP_stops_now (p : Char → Bool) (b : List Char)
    (hb : ∀ c, b.head? = some c → p c = false) :
    spanP p b = ([], b) := by
  cases b with
  | nil => rfl
  | cons c t => exact spanP_stop p c t (hb c rfl)

theorem matchTagCore_canon0 (n0 : Char) (ntail A rest : List Char) (cl : Bool)
    (hl : isLetterAscii n0 = true)
    (hnt : ∀ c ∈ ntail, isAlnumAscii c = true)
    (hA : ∀ c ∈ A, (fun d => decide (d ≠ '>')) c = true)
    (hA0 : ∀ c, A.head? = some c → isAlnumAscii c = false) :
    matchTagCore cl (n0 :: (ntail ++ (A ++ '>' :: rest))) = some (cl, n0 :: ntail, A, rest) := by
  have hsp1 : spanP isAlnumAscii (ntail ++ (A ++ '>' :: rest)) = (ntail, A ++ '>' :: rest) := by
    rw [spanP_sat_append isAlnumAscii ntail _ hnt,
      spanP_stops_now isAlnumAscii (A ++ '>' :: rest) ?_]
    · simp
    · intro c hc
      cases A with
      | nil => simp at hc; subst hc; decide
      | cons a0 A2 => simp at hc; subst hc; exact hA0 a0 rfl
  have hsp2 : spanP (fun d => decide (d ≠ '>')) (A ++ '>' :: rest) = (A, '>' :: rest) :=
    spanP_sat_stop _ A '>' rest hA (by simp)
  simp only [matchTagCore, if_pos hl, hsp1, hsp2]

theorem matchTag_canon_close (nm rest : List Char) (h : allowedB nm = true) :
    matchTag ('<' :: '/' :: (nm ++ '>' :: rest)) = some (true, nm, [], rest) := by
  rcases allowedB_cases nm h with h1 | h1 | h1 | h1 <;> subst h1
  · exact matchTagCore_canon0 'i' [] [] rest true (by decide) (by decide) (by simp) (by simp)
  · exact matchTagCore_canon0 's' "trong".data [] rest true (by decide) (by decide) (by simp) (by simp)
  · exact matchTagCore_canon0 'c' "ode".data [] rest true (by decide) (by decide) (by simp) (by simp)
  · exact matchTagCore_canon0 'a' [] [] rest true (by decide) (by decide) (by simp) (by simp)

theorem matchTag_canon_open (nm A rest : List Char) (h : allowedB nm = true)
    (hA : ∀ c ∈ A, c ≠ '>')
    (hA0 : ∀ c, A.head? = some c → isAlnumAscii c = false) :
    matchTag ('<' :: (nm ++ (A ++ '>' :: rest))) = some (false, nm, A, rest) := by
  have hA2 : ∀ c ∈ A, (fun d => decide (d ≠ '>')) c = true := by
    intro c hc; simpa using hA c hc
  rcases allowedB_cases nm h with h1 | h1 | h1 | h1 <;> subst h1
  · rw [show ('<' :: ("i".data ++ (A ++ '>' :: rest)))
        = '<' :: 'i' :: ([] ++ (A ++ '>' :: rest)) from rfl,
      matchTag_head_not_slash 'i' _ (by decide)]
    exact matchTagCore_canon0 'i' [] A rest false (by decide) (by decide) hA2 hA0
  · rw [show ('<' :: ("strong".data ++ (A ++ '>' :: rest)))
        = '<' :: 's' :: ("trong".data ++ (A ++ '>' :: rest)) from rfl,
      matchTag_head_not_slash 's' _ (by decide)]
    exact matchTagCore_canon0 's' "trong".data A rest false (by decide) (by decide) hA2 hA0
  · rw [show ('<' :: ("code".data ++ (A ++ '>' :: rest)))
        = '<' :: 'c' :: ("ode".data ++ (A ++ '>' :: rest)) from rfl,
      matchTag_head_not_slash 'c' _ (by decide)]
    exact matchTagCore_canon0 'c' "ode".data A rest false (by decide) (by decide) hA2 hA0
  · rw [show ('<' :: ("a".data ++ (A ++ '>' :: rest)))
        = '<' :: 'a' :: ([] ++ (A ++ '>' :: rest)) from rfl,
      matchTag_head_not_slash 'a' _ (by decide)]
    exact matchTagCore_canon0 'a' [] A rest false (by decide) (by decide) hA2 hA0

theorem renderAttrsL_no_gt (attrs : List (List Char × List Char))
    (h : ∀ a ∈ attrs, aAllowedAttr a.1 = true) :
    ∀ c ∈ renderAttrsL attrs, c ≠ '>' := by
  induction attrs with
  | nil => simp [renderAttrsL]
  | cons a rest ih =>
    obtain ⟨nm, v⟩ := a
    intro c hc
    simp only [renderAttrsL, List.mem_cons, List.mem_append] at hc
    rcases hc with rfl | hnm | rfl | rfl | hv | rfl | hrest
    · decide
    · have hnma := h (nm, v) (by simp)
      rcases aAllowedAttr_cases nm hnma with h1 | h1 <;> subst h1 <;>
        simp only [List.mem_cons] at hnm <;> rcases hnm with rfl | rfl | rfl | rfl | h2 <;>
          first | decide | simp_all
    · decide
    · decide
    · exact (safeChars_mem _ (escHtml_safe v) c hv).2.1
    · decide
    · exact ih (fun b hb => h b (by simp [hb])) c hrest

theorem renderAttrsL_head (attrs : List (List Char × List Char)) :
    ∀ c, (renderAttrsL attrs).head? = some c → isAlnumAscii c = false := by
  cases attrs with
  | nil => simp [renderAttrsL]
  | cons a rest =>
    obtain ⟨nm, v⟩ := a
    intro c hc
    simp only [renderAttrsL, List.head?] at hc
    rw [← Option.some.injEq] at hc
    simp at hc
    subst hc
    decide


theorem parseAttrs_step_href (v A2 : List Char) (f : Nat) :
    parseAttrsF (f + 2) (' ' :: 'h' :: ("ref".data ++ '=' :: '"' :: (escHtml v ++ '"' :: A2)))
      = ("href".data, escHtml v) :: parseAttrsF f A2 := by
  have hVq : ∀ d ∈ escHtml v, (fun d => decide (d ≠ '"')) d = true := by
    intro d hd
    simpa using (safeChars_mem _ (escHtml_safe v) d hd).2.2
  have hspan1 : spanP (fun d => !(d = '=' || d = ' ')) ("ref".data ++ '=' :: ('"' :: (escHtml v ++ '"' :: A2)))
      = ("ref".data, '=' :: ('"' :: (escHtml v ++ '"' :: A2))) :=
    spanP_sat_stop _ "ref".data '=' _ (by decide) (by decide)
  have hspan2 : spanP (fun d => decide (d ≠ '"')) (escHtml v ++ '"' :: A2)
      = (escHtml v, '"' :: A2) :=
    spanP_sat_stop _ (escHtml v) '"' _ hVq (by simp)
  show parseAttrsF ((f + 1) + 1) _ = _
  simp only [parseAttrsF]
  rw [if_pos (by decide), if_neg (by decide)]
  simp only [hspan1, hspan2]
  rw [show lowerL ('h' :: "ref".data) = "href".data from by decide]
  simp

theorem parseAttrs_step_title (v A2 : List Char) (f : Nat) :
    parseAttrsF (f + 2) (' ' :: 't' :: ("itle".data ++ '=' :: '"' :: (escHtml v ++ '"' :: A2)))
      = ("title".data, escHtml v) :: parseAttrsF f A2 := by
  have hVq : ∀ d ∈ escHtml v, (fun d => decide (d ≠ '"')) d = true := by
    intro d hd
    simpa using (safeChars_mem _ (escHtml_safe v) d hd).2.2
  have hspan1 : spanP (fun d => !(d = '=' || d = ' ')) ("itle".data ++ '=' :: ('"' :: (escHtml v ++ '"' :: A2)))
      = ("itle".data, '=' :: ('"' :: (escHtml v ++ '"' :: A2))) :=
    spanP_sat_stop _ "itle".data '=' _ (by decide) (by decide)
  have hspan2 : spanP (fun d => decide (d ≠ '"')) (escHtml v ++ '"' :: A2)
      = (escHtml v, '"' :: A2) :=
    spanP_sat_stop _ (escHtml v) '"' _ hVq (by simp)
  show parseAttrsF ((f + 1) + 1) _ = _
  simp only [parseAttrsF]
  rw [if_pos (by decide), if_neg (by decide)]
  simp only [hspan1, hspan2]
  rw [show lowerL ('t' :: "itle".data) = "title".data from by decide]
  simp

theorem parseAttrsF_fuel_ge (attrs : List (List Char × List Char))
    (h : ∀ a ∈ attrs, aAllowedAttr a.1 = true) :
    ∀ f, parseAttrsF ((renderAttrsL attrs).length + f) (renderAttrsL attrs)
      = attrs.map valEsc := by
  induction attrs with
  | nil =>
    intro f
    cases f <;> rfl
  | cons a rest ih =>
    obtain ⟨nm, v⟩ := a
    intro f
    have hrest : ∀ b ∈ rest, aAllowedAttr b.1 = true := fun b hb => h b (by simp [hb])
    rcases aAllowedAttr_cases nm (h (nm, v) (by simp)) with h1 | h1 <;> subst h1
    · have hshape : renderAttrsL (("href".data, v) :: rest)
          = ' ' :: 'h' :: ("ref".data ++ '=' :: '"' :: (escHtml v ++ '"' :: renderAttrsL rest)) := rfl
      rw [hshape]
      have hlen : (' ' :: 'h' :: ("ref".data ++ '=' :: '"' :: (escHtml v ++ '"' :: renderAttrsL rest))).length
          = ((renderAttrsL rest).length + (escHtml v).length + 6) + 2 := by
        simp
        omega
      rw [hlen]
      have := parseAttrs_step_href v (renderAttrsL rest) ((renderAttrsL rest).length + (escHtml v).length + 6 + f)
      rw [show (renderAttrsL rest).length + (escHtml v).length + 6 + 2 + f
          = ((renderAttrsL rest).length + (escHtml v).length + 6 + f) + 2 from by omega, this]
      rw [show (renderAttrsL rest).length + (escHtml v).length + 6 + f
          = (renderAttrsL rest).length + ((escHtml v).length + 6 + f) from by omega, ih hrest _]
      simp [valEsc]
    · have hshape : renderAttrsL (("title".data, v) :: rest)
          = ' ' :: 't' :: ("itle".data ++ '=' :: '"' :: (escHtml v ++ '"' :: renderAttrsL rest)) := rfl
      rw [hshape]
      have hlen : (' ' :: 't' :: ("itle".data ++ '=' :: '"' :: (escHtml v ++ '"' :: renderAttrsL rest))).length
          = ((renderAttrsL rest).length + (escHtml v).length + 7) + 2 := by
        simp
        omega
      rw [hlen]
      have := parseAttrs_step_title v (renderAttrsL rest) ((renderAttrsL rest).length + (escHtml v).length + 7 + f)
      rw [show (renderAttrsL rest).length + (escHtml v).length + 7 + 2 + f
          = ((renderAttrsL rest).length + (escHtml v).length + 7 + f) + 2 from by omega, this]
      rw [show (renderAttrsL rest).length + (escHtml v).length + 7 + f
          = (renderAttrsL rest).length + ((escHtml v).length + 7 + f) from by omega, ih hrest _]
      simp [valEsc]

theorem parseAttrs_render (attrs : List (List Char × List Char))
    (h : ∀ a ∈ attrs, aAllowedAttr a.1 = true) :
    parseAttrs (renderAttrsL attrs) = attrs.map valEsc := by
  unfold parseAttrs
  have := parseAttrsF_fuel_ge attrs h 0
  simpa using this

theorem renderItems_cons (it : CItem) (L : List CItem) :
    renderItems (it :: L) = renderItem it ++ renderItems L := by
  simp [renderItems]

theorem itemsToToks_cons (it : CItem) (L : List CItem) :
    itemsToToks (it :: L) = itemToToks it ++ itemsToToks L := by
  simp [itemsToToks]

theorem allowedB_lower (nm : List Char) (h : allowedB nm = true) : lowerL nm = nm := by
  rcases allowedB_cases nm h with h1 | h1 | h1 | h1 <;> subst h1 <;> decide

theorem itemOkB_attrs_allowed (cl : Bool) (nm : List Char)
    (attrs : List (List Char × List Char)) (h : itemOkB (.tg cl nm attrs) = true) :
    ∀ a ∈ attrs, aAllowedAttr a.1 = true := by
  unfold itemOkB at h
  rcases (Bool.and_eq_true _ _).mp h with ⟨h1, h2⟩
  intro a ha
  by_cases hcl : cl = true
  · rw [if_pos hcl] at h2
    rw [List.isEmpty_iff.mp h2] at ha
    simp at ha
  · rw [if_neg hcl] at h2
    by_cases hn : nm = "a".data
    · rw [if_pos hn] at h2
      exact List.all_eq_true.mp h2 a ha
    · rw [if_neg hn] at h2
      rw [List.isEmpty_iff.mp h2] at ha
      simp at ha

theorem lexHtml_renderItems (L : List CItem) (h : ∀ it ∈ L, itemOkB it = true) :
    lexHtml (renderItems L) = itemsToToks L := by
  induction L with
  | nil => rfl
  | cons it rest ih =>
    have hit := h it (by simp)
    have hrest : ∀ x ∈ rest, itemOkB x = true := fun x hx => h x (by simp [hx])
    rw [renderItems_cons, itemsToToks_cons]
    cases it with
    | run r =>
      show lexHtml (escHtml r ++ renderItems rest) = _
      rw [lexHtml_append_txt _ _ (fun c hc => (safeChars_mem _ (escHtml_safe r) c hc).1),
        ih hrest]
      rfl
    | tg cl nm attrs =>
      have hnm : allowedB nm = true := by
        unfold itemOkB at hit
        exact ((Bool.and_eq_true _ _).mp hit).1
      have hall := itemOkB_attrs_allowed cl nm attrs hit
      cases cl with
      | true =>
        show lexHtml (('<' :: '/' :: (nm ++ ['>'])) ++ renderItems rest) = _
        rw [show ('<' :: '/' :: (nm ++ ['>'])) ++ renderItems rest
            = '<' :: '/' :: (nm ++ '>' :: renderItems rest) from by simp,
          lexHtml_tag _ _ _ _ _ (matchTag_canon_close nm (renderItems rest) hnm), ih hrest]
        rfl
      | false =>
        show lexHtml (('<' :: (nm ++ (renderAttrsL attrs ++ ['>']))) ++ renderItems rest) = _
        rw [show ('<' :: (nm ++ (renderAttrsL attrs ++ ['>']))) ++ renderItems rest
            = '<' :: (nm ++ (renderAttrsL attrs ++ '>' :: renderItems rest)) from by simp,
          lexHtml_tag _ _ _ _ _
            (matchTag_canon_open nm (renderAttrsL attrs) (renderItems rest) hnm
              (renderAttrsL_no_gt attrs hall) (renderAttrsL_head attrs)),
          ih hrest]
        rfl

theorem noAdjRuns_cons_tg (cl : Bool) (nm : List Char)
    (attrs : List (List Char × List Char)) (t : List CItem) :
    noAdjRuns (.tg cl nm attrs :: t) = noAdjRuns t := by
  cases t with
  | nil => rfl
  | cons h2 t2 => cases h2 <;> rfl

theorem noAdjRuns_cons_run (r : List Char) (t : List CItem)
    (ht : ∀ r2 is, t ≠ .run r2 :: is) :
    noAdjRuns (.run r :: t) = noAdjRuns t := by
  cases t with
  | nil => rfl
  | cons h2 t2 =>
    cases h2 with
    | run r2 => exact absurd rfl (ht r2 t2)
    | tg cl nm a => rfl

theorem toItems_cons_txt (c : Char) (ts : List HTok) :
    toItems (.txt c :: ts)
      = match toItems ts with
        | .run r :: is => .run (c :: r) :: is
        | is => .run [c] :: is := by
  simp only [toItems]

theorem toItems_txtmap (a : List Char) (ts : List HTok) (ha : a ≠ []) :
    toItems (a.map HTok.txt ++ ts)
      = match toItems ts with
        | .run r :: is => .run (a ++ r) :: is
        | is => .run a :: is := by
  induction a with
  | nil => simp at ha
  | cons c t ih =>
    cases t with
    | nil =>
      show toItems (.txt c :: ts) = _
      rw [toItems_cons_txt]
      cases hts : toItems ts with
      | nil => rfl
      | cons it2 is2 => cases it2 <;> rfl
    | cons d t2 =>
      show toItems (.txt c :: ((d :: t2).map HTok.txt ++ ts)) = _
      rw [toItems_cons_txt, ih (by simp)]
      cases hts : toItems ts with
      | nil => rfl
      | cons it2 is2 => cases it2 <;> rfl

theorem toItems_itemsToToks (L : List CItem)
    (hok : ∀ it ∈ L, itemOkB it = true) (hadj : noAdjRuns L = true) :
    toItems (itemsToToks L) = L.map normItem := by
  induction L with
  | nil => rfl
  | cons it rest ih =>
    have hit := hok it (by simp)
    have hrest : ∀ x ∈ rest, itemOkB x = true := fun x hx => hok x (by simp [hx])
    rw [itemsToToks_cons]
    cases it with
    | run r =>
      have hr : r ≠ [] := by
        unfold itemOkB at hit
        simpa using hit
      have hadj2 : noAdjRuns rest = true := by
        rw [noAdjRuns_cons_run r rest ?_] at hadj
        · exact hadj
        · intro r2 is hc
          subst hc
          simp [noAdjRuns] at hadj
      have hheadrest : ∀ r2 is, rest ≠ .run r2 :: is := by
        intro r2 is hc
        subst hc
        simp [noAdjRuns] at hadj
      show toItems ((escHtml r).map HTok.txt ++ itemsToToks rest) = _
      rw [toItems_txtmap _ _ (escHtml_ne_nil r hr), ih hrest hadj2]
      simp only [List.map_cons]
      cases hrm : rest.map normItem with
      | nil => simp [normItem]
      | cons it2 is2 =>
        cases it2 with
        | run r2 =>
          exfalso
          cases rest with
          | nil => simp at hrm
          | cons it3 rest2 =>
            cases it3 with
            | run r3 => exact hheadrest r3 rest2 rfl
            | tg a b c => simp [normItem] at hrm
        | tg cl2 nm2 a2 => simp [normItem]
    | tg cl nm attrs =>
      have hadj2 : noAdjRuns rest = true := by
        rw [noAdjRuns_cons_tg] at hadj
        exact hadj
      have hnm : allowedB nm = true := by
        unfold itemOkB at hit
        exact ((Bool.and_eq_true _ _).mp hit).1
      have hall := itemOkB_attrs_allowed cl nm attrs hit
      cases cl with
      | true =>
        have hattrs : attrs = [] := by
          unfold itemOkB at hit
          have h2 := ((Bool.and_eq_true _ _).mp hit).2
          rw [if_pos rfl] at h2
          exact List.isEmpty_iff.mp h2
        subst hattrs
        show toItems (.tag true nm [] :: itemsToToks rest) = _
        simp only [toItems]
        rw [allowedB_lower nm hnm, if_pos hnm, ih hrest hadj2]
        simp [cleanTag, normItem]
      | false =>
        show toItems (.tag false nm (renderAttrsL attrs) :: itemsToToks rest) = _
        simp only [toItems]
        rw [allowedB_lower nm hnm, if_pos hnm, ih hrest hadj2]
        unfold cleanTag normItem
        by_cases hna : nm = "a".data
        · rw [if_neg (by simp), if_pos hna]
          rw [parseAttrs_render attrs hall]
          have : filterAAttrs (attrs.map valEsc) = attrs.map valEsc := by
            unfold filterAAttrs
            apply List.filter_eq_self.mpr
            intro a ha2
            obtain ⟨a0, ha0, rfl⟩ := List.mem_map.mp ha2
            simpa [valEsc] using hall a0 ha0
          rw [this]
          simp
        · have hattrs : attrs = [] := by
            unfold itemOkB at hit
            have h2 := ((Bool.and_eq_true _ _).mp hit).2
            rw [if_neg (by simp), if_neg hna] at h2
            exact List.isEmpty_iff.mp h2
          subst hattrs
          rw [if_neg (by simp), if_neg hna]
          simp

theorem toItems_cons_tag (cl : Bool) (nm ins : List Char) (ts : List HTok) :
    toItems (.tag cl nm ins :: ts)
      = if allowedB (lowerL nm) then cleanTag cl (lowerL nm) ins :: toItems ts
        else toItems ts := by
  simp only [toItems]

theorem itemOkB_cleanTag (cl : Bool) (nm ins : List Char) (h : allowedB nm = true) :
    itemOkB (cleanTag cl nm ins) = true := by
  unfold cleanTag
  by_cases hcl : cl = true
  · rw [if_pos hcl]
    simp [itemOkB, h]
  · rw [if_neg hcl]
    by_cases hna : nm = "a".data
    · rw [if_pos hna]
      simp only [itemOkB, h, Bool.true_and, if_neg (by simp : ¬(false = true)), if_pos hna]
      apply List.all_eq_true.mpr
      intro a ha
      exact (List.mem_filter.mp ha).2
    · rw [if_neg hna]
      simp [itemOkB, h, hna]

theorem toItems_ok (toks : List HTok) :
    (∀ it ∈ toItems toks, itemOkB it = true) ∧ noAdjRuns (toItems toks) = true := by
  induction toks with
  | nil => exact ⟨by simp [toItems], rfl⟩
  | cons tok ts ih =>
    obtain ⟨ihok, ihadj⟩ := ih
    cases tok with
    | tag cl nm ins =>
      rw [toItems_cons_tag]
      by_cases hal : allowedB (lowerL nm) = true
      · rw [if_pos hal]
        refine ⟨?_, ?_⟩
        · intro it hit
          rcases List.mem_cons.mp hit with rfl | hit2
          · exact itemOkB_cleanTag cl (lowerL nm) ins hal
          · exact ihok it hit2
        · unfold cleanTag
          by_cases hcl : cl = true
          · rw [if_pos hcl, noAdjRuns_cons_tg]
            exact ihadj
          · rw [if_neg hcl]
            by_cases hna : lowerL nm = "a".data
            · rw [if_pos hna, noAdjRuns_cons_tg]
              exact ihadj
            · rw [if_neg hna, noAdjRuns_cons_tg]
              exact ihadj
      · rw [if_neg hal]
        exact ⟨ihok, ihadj⟩
    | txt c =>
      rw [toItems_cons_txt]
      cases hts : toItems ts with
      | nil => exact ⟨by simp [itemOkB], rfl⟩
      | cons it2 is2 =>
        cases it2 with
        | run r2 =>
          have hthis : noAdjRuns (CItem.run r2 :: is2) = true := by
            rw [← hts]; exact ihadj
          have hne : ∀ r3 is3, is2 ≠ CItem.run r3 :: is3 := by
            intro r3 is3 hc
            subst hc
            simp [noAdjRuns] at hthis
          refine ⟨?_, ?_⟩
          · intro it hit
            rcases List.mem_cons.mp hit with rfl | hit2
            · simp [itemOkB]
            · exact ihok it (by rw [hts]; simp [hit2])
          · rw [noAdjRuns_cons_run _ _ hne]
            rw [noAdjRuns_cons_run _ _ hne] at hthis
            exact hthis
        | tg cl2 nm2 a2 =>
          refine ⟨?_, ?_⟩
          · intro it hit
            rcases List.mem_cons.mp hit with rfl | hit2
            · simp [itemOkB]
            · exact ihok it (by rw [hts]; simp [hit2])
          · rw [noAdjRuns_cons_run _ _ (by intro x y h; simp at h)]
            rw [← hts]
            exact ihadj

theorem renderAttrsL_valEsc (attrs : List (List Char × List Char)) :
    renderAttrsL (attrs.map valEsc) = renderAttrsL attrs := by
  induction attrs with
  | nil => rfl
  | cons a rest ih =>
    obtain ⟨nm, v⟩ := a
    simp only [List.map_cons, valEsc, renderAttrsL, escHtml_idem, ih]

theorem renderItem_normItem (it : CItem) : renderItem (normItem it) = renderItem it := by
  cases it with
  | run r => simp [normItem, renderItem, escHtml_idem]
  | tg cl nm attrs =>
    cases cl with
    | true => simp [normItem, renderItem]
    | false => simp [normItem, renderItem, renderAttrsL_valEsc]

theorem renderItems_map_normItem (L : List CItem) :
    renderItems (L.map normItem) = renderItems L := by
  induction L with
  | nil => rfl
  | cons it rest ih =>
    rw [List.map_cons, renderItems_cons, renderItems_cons, renderItem_normItem, ih]

theorem bleach_clean_idem (x : List Char) :
    bleach_clean (bleach_clean x) = bleach_clean x := by
  unfold bleach_clean
  obtain ⟨hok, hadj⟩ := toItems_ok (lexHtml x)
  rw [lexHtml_renderItems _ hok, toItems_itemsToToks _ hok hadj, renderItems_map_normItem]

theorem runsJoin_cons (it : CItem) (L : List CItem) :
    runsJoin (it :: L)
      = (match it with | .run r => escHtml r | .tg _ _ _ => []) ++ runsJoin L := by
  simp [runsJoin]

theorem runsJoin_safe (L : List CItem) : safeChars (runsJoin L) = true := by
  induction L with
  | nil => rfl
  | cons it rest ih =>
    rw [runsJoin_cons]
    cases it with
    | run r => exact safeChars_append _ _ (escHtml_safe r) ih
    | tg cl nm a => simpa using ih

theorem runsJoin_ampOk (L : List CItem) : ampOk (runsJoin L) = true := by
  induction L with
  | nil => rfl
  | cons it rest ih =>
    rw [runsJoin_cons]
    cases it with
    | run r => exact ampOk_append _ _ (escHtml_ampOk r) ih
    | tg cl nm a => simpa using ih

theorem findTags_renderItems (L : List CItem) (h : ∀ it ∈ L, itemOkB it = true) :
    findTags (renderItems L) = tagsOfItems L := by
  unfold findTags
  rw [lexHtml_renderItems L h]
  induction L with
  | nil => rfl
  | cons it rest ih =>
    rw [itemsToToks_cons]
    rw [List.filterMap_append]
    rw [ih (fun x hx => h x (by simp [hx]))]
    cases it with
    | run r =>
      show (List.map HTok.txt (escHtml r)).filterMap _ ++ _ = _
      rw [List.filterMap_map]
      simp [tagsOfItems]
    | tg cl nm a =>
      cases cl <;> simp [itemToToks, tagsOfItems]

theorem stripOnce_renderItems (L : List CItem) (h : ∀ it ∈ L, itemOkB it = true) :
    stripOnce (renderItems L) = runsJoin L := by
  unfold stripOnce
  rw [lexHtml_renderItems L h]
  induction L with
  | nil => rfl
  | cons it rest ih =>
    rw [itemsToToks_cons, List.filterMap_append, ih (fun x hx => h x (by simp [hx])),
      runsJoin_cons]
    cases it with
    | run r =>
      show (List.map HTok.txt (escHtml r)).filterMap _ ++ _ = _
      rw [List.filterMap_map]
      rw [show ((fun t => match t with
            | HTok.txt c => some c
            | HTok.tag _ _ _ => none) ∘ HTok.txt) = some from rfl]
      simp
    | tg cl nm a =>
      cases cl <;> simp [itemToToks]

theorem lexHtml_all_txt (l : List Char) (h : ∀ c ∈ l, c ≠ '<') :
    lexHtml l = l.map HTok.txt := by
  have := lexHtml_append_txt l [] h
  simpa [lexHtml, lexFuel] using this

theorem findTags_safe (l : List Char) (h : safeChars l = true) : findTags l = [] := by
  unfold findTags
  rw [lexHtml_all_txt l (fun c hc => (safeChars_mem l h c hc).1)]
  simp

theorem stripFuel_fix (l : List Char) (h : findTags l = []) :
    ∀ fuel, stripFuel fuel l = l := by
  intro fuel
  cases fuel with
  | zero => rfl
  | succ n => simp [stripFuel, h]

theorem renderItems_eq_runsJoin (L : List CItem) (htag : tagsOfItems L = []) :
    renderItems L = runsJoin L := by
  induction L with
  | nil => rfl
  | cons it rest ih =>
    cases it with
    | run r =>
      rw [renderItems_cons, runsJoin_cons, ih (by simpa [tagsOfItems] using htag)]
      rfl
    | tg cl nm a => simp [tagsOfItems] at htag

theorem strip_tags_renderItems (L : List CItem) (h : ∀ it ∈ L, itemOkB it = true) :
    strip_tags (renderItems L) = runsJoin L := by
  unfold strip_tags
  cases htag : findTags (renderItems L) with
  | nil =>
    rw [stripFuel_fix _ htag]
    apply renderItems_eq_runsJoin
    rw [← findTags_renderItems L h, htag]
  | cons p ps =>
    have hne : renderItems L ≠ [] := by
      intro hnil
      rw [hnil] at htag
      simp [findTags, lexHtml, lexFuel] at htag
    obtain ⟨m, hm⟩ : ∃ m, (renderItems L).length = m + 1 :=
      ⟨(renderItems L).length - 1, by cases hl : (renderItems L).length with
        | zero => exact absurd (List.eq_nil_of_length_eq_zero hl) hne
        | succ k => simp⟩
    rw [hm]
    show stripFuel (m + 1) (renderItems L) = _
    rw [show stripFuel (m + 1) (renderItems L) = stripFuel m (stripOnce (renderItems L)) from by
      simp [stripFuel, htag]]
    rw [stripOnce_renderItems L h]
    exact stripFuel_fix _ (findTags_safe _ (runsJoin_safe L)) m

theorem bleach_clean_fixed (s : List Char) (hs : safeChars s = true) (ha : ampOk s = true) :
    bleach_clean s = s := by
  cases s with
  | nil => rfl
  | cons c t =>
    unfold bleach_clean
    rw [lexHtml_all_txt _ (fun d hd => (safeChars_mem _ hs d hd).1)]
    have := toItems_txtmap (c :: t) [] (by simp)
    simp only [List.append_nil] at this
    rw [this]
    show renderItems [CItem.run (c :: t)] = c :: t
    rw [renderItems_cons]
    show escHtml (c :: t) ++ [] = c :: t
    rw [List.append_nil, escHtml_fixed _ ha hs]

theorem is_valid_of_no_tags (l : List Char) (h : findTags l = []) :
    is_valid_xhtml l = true := by
  unfold is_valid_xhtml
  rw [h]
  rfl

/-- Claim C5, confirmed: sanitize_text is idempotent — running the
sanitizer (bleach allow-list clean, falling back to strip_tags when the
cleaned text fails the well-formedness check) a second time on its own
output returns that output unchanged. -/
theorem c5_sanitize_idempotent (x : List Char) :
    sanitize_text (sanitize_text x) = sanitize_text x := by
  obtain ⟨hok, hadj⟩ := toItems_ok (lexHtml x)
  unfold sanitize_text
  cases hv : is_valid_xhtml (bleach_clean x) with
  | true =>
    simp only [hv, if_true]
    rw [bleach_clean_idem x, hv]
    simp
  | false =>
    simp only [hv, Bool.false_eq_true, if_false]
    have hstrip : strip_tags (bleach_clean x) = runsJoin (toItems (lexHtml x)) :=
      strip_tags_renderItems _ hok
    have hsafe : safeChars (strip_tags (bleach_clean x)) = true := by
      rw [hstrip]; exact runsJoin_safe _
    have hamp : ampOk (strip_tags (bleach_clean x)) = true := by
      rw [hstrip]; exact runsJoin_ampOk _
    rw [bleach_clean_fixed _ hsafe hamp,
      is_valid_of_no_tags _ (findTags_safe _ hsafe)]
    simp

theorem noSlashGt_of_no_gt (l : List Char) (h : ∀ c ∈ l, c ≠ '>') :
    noSlashGtB l = true := by
  induction l with
  | nil => rfl
  | cons c t ih =>
    cases t with
    | nil => rfl
    | cons d t2 =>
      show (!(c = '/' && d = '>') && noSlashGtB (d :: t2)) = true
      rw [ih (fun e he => h e (by simp [he]))]
      have hd : d ≠ '>' := h d (by simp)
      simp [hd]

theorem noSlashGt_of_no_slash (l : List Char) (h : ∀ c ∈ l, c ≠ '/') :
    noSlashGtB l = true := by
  induction l with
  | nil => rfl
  | cons c t ih =>
    cases t with
    | nil => rfl
    | cons d t2 =>
      show (!(c = '/' && d = '>') && noSlashGtB (d :: t2)) = true
      rw [ih (fun e he => h e (by simp [he]))]
      have hc : c ≠ '/' := h c (by simp)
      simp [hc]

theorem noSlashGtB_tail (c : Char) (t : List Char) (h : noSlashGtB (c :: t) = true) :
    noSlashGtB t = true := by
  cases t with
  | nil => rfl
  | cons d t2 =>
    have : (!(c = '/' && d = '>') && noSlashGtB (d :: t2)) = true := h
    exact ((Bool.and_eq_true _ _).mp this).2

theorem noSlashGt_append (a b : List Char) (ha : noSlashGtB a = true)
    (hb : noSlashGtB b = true) (hb0 : ∀ c, b.head? = some c → c ≠ '>') :
    noSlashGtB (a ++ b) = true := by
  induction a with
  | nil => simpa using hb
  | cons c t ih =>
    have ht : noSlashGtB (t ++ b) = true := ih (noSlashGtB_tail c t ha)
    cases hteq : t with
    | nil =>
      subst hteq
      cases hbeq : b with
      | nil => rfl
      | cons e b2 =>
        show (!(c = '/' && e = '>') && noSlashGtB (e :: b2)) = true
        rw [show noSlashGtB (e :: b2) = true from by rw [← hbeq]; exact hb]
        have he : e ≠ '>' := hb0 e (by rw [hbeq]; rfl)
        simp [he]
    | cons d t2 =>
      subst hteq
      show (!(c = '/' && d = '>') && noSlashGtB ((d :: t2) ++ b)) = true
      rw [ht]
      have : (!(c = '/' && d = '>') && noSlashGtB (d :: t2)) = true := ha
      have h1 := ((Bool.and_eq_true _ _).mp this).1
      simp_all

theorem noSlashGt_append_gt (l : List Char) (h : ∀ c ∈ l, c ≠ '>')
    (hl : l.getLast? ≠ some '/') : noSlashGtB (l ++ ['>']) = true := by
  induction l with
  | nil => rfl
  | cons c t ih =>
    cases t with
    | nil =>
      show (!(c = '/' && '>' = '>') && noSlashGtB ['>']) = true
      have hc : c ≠ '/' := by simpa using hl
      simp [hc, noSlashGtB]
    | cons d t2 =>
      show (!(c = '/' && d = '>') && noSlashGtB ((d :: t2) ++ ['>'])) = true
      rw [ih (fun e he => h e (by simp [he])) (by
        intro hco
        apply hl
        rw [show (c :: d :: t2).getLast? = (d :: t2).getLast? from List.getLast?_cons_cons]
        exact hco)]
      have hd : d ≠ '>' := h d (by simp)
      simp [hd]

theorem noSlashGt_drop (l : List Char) (h : noSlashGtB l = true) (k : Nat) :
    noSlashGtB (l.drop k) = true := by
  induction k generalizing l with
  | zero => simpa using h
  | succ n ih =>
    cases l with
    | nil => rfl
    | cons c t => exact ih t (noSlashGtB_tail c t h)

theorem noSlashGt_take (l : List Char) (h : noSlashGtB l = true) (k : Nat) :
    noSlashGtB (l.take k) = true := by
  induction l generalizing k with
  | nil => simp [noSlashGtB]
  | cons c t ih =>
    cases k with
    | zero => rfl
    | succ n =>
      rw [List.take_succ_cons]
      cases t with
      | nil => simp [noSlashGtB]
      | cons d t2 =>
        cases n with
        | zero => rfl
        | succ m =>
          rw [List.take_succ_cons]
          have hcd : (!(c = '/' && d = '>')) = true :=
            ((Bool.and_eq_true _ _).mp h).1
          have ht := noSlashGtB_tail c (d :: t2) h
          have h2 := ih ht (m + 1)
          rw [List.take_succ_cons] at h2
          show (!(c = '/' && d = '>') && noSlashGtB (d :: List.take m t2)) = true
          simp_all

theorem noSlashGt_pre_sg (pre : List Char) : noSlashGtB (pre ++ ['/', '>']) = false := by
  induction pre with
  | nil => rfl
  | cons c t ih =>
    cases t with
    | nil =>
      show (!(c = '/' && '/' = '>') && noSlashGtB ['/', '>']) = false
      rw [show noSlashGtB ['/', '>'] = false from rfl]
      simp
    | cons d t2 =>
      show (!(c = '/' && d = '>') && noSlashGtB ((d :: t2) ++ ['/', '>'])) = false
      rw [ih]
      simp

theorem endsWith_decomp (suf l : List Char) (h : endsWith suf l = true) :
    ∃ pre, l = pre ++ suf := by
  unfold endsWith at h
  obtain ⟨h1, h2⟩ := (Bool.and_eq_true _ _).mp h
  refine ⟨l.take (l.length - suf.length), ?_⟩
  have hd : l.drop (l.length - suf.length) = suf := by
    simpa using h1
  conv_lhs => rw [← List.take_append_drop (l.length - suf.length) l]
  rw [hd]

theorem looksSelfClosing_false (text : List Char) (h : noSlashGtB text = true)
    (nm : List Char) : looksSelfClosing text nm = false := by
  unfold looksSelfClosing
  cases he : endsWith ['/', '>'] (pySlice text (pyFindSub text ('<' :: nm))
      (pyFindCh text '>' (pyFindSub text ('<' :: nm)) + 1)) with
  | false => rfl
  | true =>
    exfalso
    obtain ⟨pre, hpre⟩ := endsWith_decomp _ _ he
    have hsl : noSlashGtB (pySlice text (pyFindSub text ('<' :: nm))
        (pyFindCh text '>' (pyFindSub text ('<' :: nm)) + 1)) = true := by
      unfold pySlice
      exact noSlashGt_drop _ (noSlashGt_take _ h _) _
    rw [hpre, noSlashGt_pre_sg pre] at hsl
    exact absurd hsl (by simp)

theorem getLast?_append_ne (a b : List Char) (hb : b ≠ []) :
    (a ++ b).getLast? = b.getLast? := by
  rw [List.getLast?_append]
  obtain ⟨x, hx⟩ := Option.isSome_iff_exists.mp (List.getLast?_isSome.mpr hb)
  rw [hx]
  rfl

theorem renderAttrsL_getLast (attrs : List (List Char × List Char)) (h : attrs ≠ []) :
    (renderAttrsL attrs).getLast? = some '"' := by
  induction attrs with
  | nil => exact absurd rfl h
  | cons a rest ih =>
    obtain ⟨nm, v⟩ := a
    show (' ' :: (nm ++ '=' :: '"' :: (escHtml v ++ '"' :: renderAttrsL rest))).getLast? = some '"'
    cases hr : rest with
    | nil =>
      subst hr
      rw [show (' ' :: (nm ++ '=' :: '"' :: (escHtml v ++ '"' :: renderAttrsL [])))
          = (' ' :: (nm ++ '=' :: '"' :: escHtml v)) ++ ['"'] from by
        simp [renderAttrsL]]
      exact List.getLast?_concat _
    | cons b rest2 =>
      subst hr
      have hne : renderAttrsL (b :: rest2) ≠ [] := by
        obtain ⟨n2, v2⟩ := b
        simp [renderAttrsL]
      rw [show (' ' :: (nm ++ '=' :: '"' :: (escHtml v ++ '"' :: renderAttrsL (b :: rest2))))
          = (' ' :: (nm ++ '=' :: '"' :: (escHtml v ++ ['"']))) ++ renderAttrsL (b :: rest2) from by
        simp]
      rw [getLast?_append_ne _ _ hne]
      exact ih (by simp)

theorem noSlashGt_cons_lt (x : List Char) :
    noSlashGtB ('<' :: x) = noSlashGtB x := by
  cases x with
  | nil => rfl
  | cons d t => simp [noSlashGtB]

theorem allowed_nm_no_gt (nm : List Char) (h : allowedB nm = true) :
    ∀ c ∈ nm, c ≠ '>' := by
  rcases allowedB_cases nm h with h1 | h1 | h1 | h1 <;> subst h1 <;> decide

theorem noSlashGt_renderItem (it : CItem) (h : itemOkB it = true) :
    noSlashGtB (renderItem it) = true := by
  cases it with
  | run r =>
    exact noSlashGt_of_no_gt _ (fun c hc => (safeChars_mem _ (escHtml_safe r) c hc).2.1)
  | tg cl nm attrs =>
    have hnm : allowedB nm = true := by
      unfold itemOkB at h
      exact ((Bool.and_eq_true _ _).mp h).1
    cases cl with
    | true =>
      show noSlashGtB ('<' :: '/' :: (nm ++ ['>'])) = true
      rcases allowedB_cases nm hnm with h1 | h1 | h1 | h1 <;> subst h1 <;> decide
    | false =>
      have hall := itemOkB_attrs_allowed false nm attrs h
      show noSlashGtB ('<' :: (nm ++ (renderAttrsL attrs ++ ['>']))) = true
      rw [noSlashGt_cons_lt, ← List.append_assoc]
      apply noSlashGt_append_gt
      · intro c hc
        rcases List.mem_append.mp hc with hc1 | hc2
        · exact allowed_nm_no_gt nm hnm c hc1
        · exact renderAttrsL_no_gt attrs hall c hc2
      · cases hattr : attrs with
        | nil =>
          rw [show renderAttrsL [] = [] from rfl, List.append_nil]
          rcases allowedB_cases nm hnm with h1 | h1 | h1 | h1 <;> subst h1 <;> decide
        | cons b rest2 =>
          rw [getLast?_append_ne _ _ (by rw [hattr] at *; obtain ⟨n2, v2⟩ := b; simp [renderAttrsL])]
          rw [hattr] at *
          rw [renderAttrsL_getLast _ (by simp)]
          decide

theorem renderItems_head_ne_gt (L : List CItem) (h : ∀ it ∈ L, itemOkB it = true) :
    ∀ c, (renderItems L).head? = some c → c ≠ '>' := by
  induction L with
  | nil => simp [renderItems]
  | cons it rest ih =>
    intro c hc
    rw [renderItems_cons] at hc
    cases it with
    | run r =>
      have hr : r ≠ [] := by
        have := h (CItem.run r) (by simp)
        unfold itemOkB at this
        simpa using this
      have hesc := escHtml_ne_nil r hr
      cases hescl : escHtml r with
      | nil => exact absurd hescl hesc
      | cons e et =>
        rw [show renderItem (CItem.run r) = escHtml r from rfl, hescl] at hc
        simp only [List.cons_append, List.head?] at hc
        rw [← Option.some.injEq] at hc
        simp at hc
        subst hc
        exact (safeChars_mem _ (escHtml_safe r) e (by rw [hescl]; simp)).2.1
    | tg cl nm attrs =>
      cases cl with
      | true =>
        rw [show renderItem (CItem.tg true nm attrs) = '<' :: '/' :: (nm ++ ['>']) from rfl] at hc
        simp at hc
        subst hc
        decide
      | false =>
        rw [show renderItem (CItem.tg false nm attrs)
            = '<' :: (nm ++ (renderAttrsL attrs ++ ['>'])) from rfl] at hc
        simp at hc
        subst hc
        decide

theorem noSlashGt_renderItems (L : List CItem) (h : ∀ it ∈ L, itemOkB it = true) :
    noSlashGtB (renderItems L) = true := by
  induction L with
  | nil => rfl
  | cons it rest ih =>
    rw [renderItems_cons]
    exact noSlashGt_append _ _ (noSlashGt_renderItem it (h it (by simp)))
      (ih (fun x hx => h x (by simp [hx])))
      (renderItems_head_ne_gt rest (fun x hx => h x (by simp [hx])))

theorem validScan_eq_balanced (text : List Char)
    (h : ∀ nm, looksSelfClosing text nm = false) :
    ∀ tags stack, validScan text tags stack = balancedScan tags stack := by
  intro tags
  induction tags with
  | nil => intro stack; rfl
  | cons p rest ih =>
    intro stack
    obtain ⟨cl, nm⟩ := p
    show validScan text ((cl, nm) :: rest) stack = _
    unfold validScan balancedScan
    by_cases hcl : cl = true
    · subst hcl
      simp only [if_true]
      cases stack with
      | nil => rfl
      | cons top s => by_cases ht : top = lowerL nm <;> simp [ht, ih]
    · have : cl = false := by simpa using hcl
      subst this
      simp only [Bool.false_eq_true, if_false, h (lowerL nm)]
      exact ih (lowerL nm :: stack)

theorem tagsOfItems_allowed (L : List CItem) (h : ∀ it ∈ L, itemOkB it = true) :
    ∀ p ∈ tagsOfItems L, allowedB (lowerL p.2) = true := by
  intro p hp
  unfold tagsOfItems at hp
  obtain ⟨it, hitm, hit2⟩ := List.mem_filterMap.mp hp
  cases it with
  | run r => simp at hit2
  | tg cl nm attrs =>
    simp only [Option.some.injEq] at hit2
    subst hit2
    have := h _ hitm
    unfold itemOkB at this
    have hnm := ((Bool.and_eq_true _ _).mp this).1
    rw [allowedB_lower _ hnm]
    exact hnm

theorem itemsToToks_attrs_ok (L : List CItem) (h : ∀ it ∈ L, itemOkB it = true) :
    ∀ tok ∈ itemsToToks L, ∀ cl nm ins, tok = HTok.tag cl nm ins →
      ∀ a ∈ parseAttrs ins, aAllowedAttr a.1 = true := by
  intro tok htok cl nm ins htag a ha
  subst htag
  unfold itemsToToks at htok
  obtain ⟨tl, htl, htok2⟩ := List.mem_flatten.mp htok
  obtain ⟨it, hitm, hit2⟩ := List.mem_map.mp htl
  subst hit2
  cases it with
  | run r =>
    simp only [itemToToks, List.mem_map] at htok2
    obtain ⟨c2, _, hc2⟩ := htok2
    simp at hc2
  | tg cl2 nm2 attrs2 =>
    have hok := h _ hitm
    have hall := itemOkB_attrs_allowed cl2 nm2 attrs2 hok
    cases cl2 with
    | true =>
      simp only [itemToToks, List.mem_singleton] at htok2
      obtain ⟨h1, h2, h3⟩ := HTok.tag.inj htok2.symm
      subst h3
      simp [parseAttrs, parseAttrsF] at ha
    | false =>
      simp only [itemToToks, List.mem_singleton] at htok2
      obtain ⟨h1, h2, h3⟩ := HTok.tag.inj htok2.symm
      subst h3
      rw [parseAttrs_render attrs2 hall] at ha
      obtain ⟨a0, ha0, rfl⟩ := List.mem_map.mp ha
      simpa [valEsc] using hall a0 ha0

/-- Claim C6, confirmed: the stored text only ever contains tags from the
allow-list with attributes from the per-tag attribute allow-list, and its
tags are properly balanced; when the cleaned text fails the
well-formedness check, the strip_tags fallback leaves no tags at all. -/
theorem c6_sanitize_allowlist (x : List Char) :
    (∀ p ∈ findTags (sanitize_text x), allowedB (lowerL p.2) = true) ∧
    (is_valid_xhtml (bleach_clean x) = false → findTags (sanitize_text x) = []) ∧
    balancedTags (findTags (sanitize_text x)) = true ∧
    (∀ tok ∈ lexHtml (sanitize_text x), ∀ cl nm ins, tok = HTok.tag cl nm ins →
      ∀ a ∈ parseAttrs ins, aAllowedAttr a.1 = true) := by
  obtain ⟨hok, hadj⟩ := toItems_ok (lexHtml x)
  cases hv : is_valid_xhtml (bleach_clean x) with
  | true =>
    have hs : sanitize_text x = bleach_clean x := by
      simp [sanitize_text, hv]
    rw [hs]
    refine ⟨?_, ?_, ?_, ?_⟩
    · rw [show bleach_clean x = renderItems (toItems (lexHtml x)) from rfl,
        findTags_renderItems _ hok]
      exact tagsOfItems_allowed _ hok
    · intro hcontra
      exact absurd hcontra (by simp)
    · have hlsc : ∀ nm, looksSelfClosing (bleach_clean x) nm = false :=
        looksSelfClosing_false _ (noSlashGt_renderItems _ hok)
      have := hv
      unfold is_valid_xhtml at this
      rw [validScan_eq_balanced _ hlsc] at this
      exact this
    · rw [show bleach_clean x = renderItems (toItems (lexHtml x)) from rfl,
        lexHtml_renderItems _ hok]
      exact itemsToToks_attrs_ok _ hok
  | false =>
    have hs : sanitize_text x = strip_tags (bleach_clean x) := by
      simp [sanitize_text, hv]
    have hstrip : strip_tags (bleach_clean x) = runsJoin (toItems (lexHtml x)) :=
      strip_tags_renderItems _ hok
    have hsafe : safeChars (sanitize_text x) = true := by
      rw [hs, hstrip]
      exact runsJoin_safe _
    have hnotags : findTags (sanitize_text x) = [] := findTags_safe _ hsafe
    refine ⟨?_, fun _ => hnotags, ?_, ?_⟩
    · rw [hnotags]
      simp
    · rw [hnotags]
      rfl
    · intro tok htok cl nm ins htag
      rw [lexHtml_all_txt _ (fun c hc => (safeChars_mem _ hsafe c hc).1)] at htok
      obtain ⟨c2, _, hc2⟩ := List.mem_map.mp htok
      rw [htag] at hc2
      simp at hc2

/-- Witness instance for claim C6 at an input whose cleaned form fails
the well-formedness check (an unclosed allowed tag), showing the
fallback produces a tag-free, trivially well-formed output. -/
theorem c6_sanitize_allowlist_witness :
    is_valid_xhtml (bleach_clean ('<' :: 'i' :: '>' :: 'x' :: [])) = false ∧
    findTags (sanitize_text ('<' :: 'i' :: '>' :: 'x' :: [])) = [] ∧
    balancedTags (findTags (sanitize_text ('<' :: 'i' :: '>' :: 'x' :: []))) = true := by
  refine ⟨by decide, ?_, ?_⟩
  · exact (c6_sanitize_allowlist ('<' :: 'i' :: '>' :: 'x' :: [])).2.1 (by decide)
  · exact (c6_sanitize_allowlist ('<' :: 'i' :: '>' :: 'x' :: [])).2.2.1
